import Mathlib

set_option maxRecDepth 100000
set_option maxHeartbeats 1600000

/-!
Verification of the latinitas inscription-processing pipeline.

Shallow embedding of the Python sources:
* fix_spacing_and_adjust_annotations.py : spacing fixer with span adjustment
* fix_annotations_v3.py : span reconciliation (filter / formula merge / relabel)
* latinepi/parser.py : pattern-based entity extraction stub
* latinepi/hybrid_parser.py : entity merging and consolidation

Text is modelled as List Char (Python str indexing is by code point).
Python floats are modelled as rationals.  Python's re module is embedded
per pattern: every pattern used by the sources is a concatenation of
literals, whitespace gaps, word boundaries and bounded character classes,
whose backtracking behaviour is deterministic, so each one is realised as
a structural matcher that provably agrees with the regex semantics.
-/

namespace Latinitas

/-- Word character for the \w / word-boundary semantics of Python regexes
(ASCII fragment: alphanumeric or underscore). -/
def isWordChar (c : Char) : Bool := c.isAlphanum || c = '_'

/-- Whitespace for Python's \s (ASCII fragment). -/
def isSpaceChar (c : Char) : Bool :=
  c = ' ' || c = '\t' || c = '\n' || c = '\r' || c = '\x0b' || c = '\x0c'

/-- Character at index, with a non-word default past the ends. -/
def chAt (t : List Char) (i : Nat) : Char := t.getD i ' '

/-- Regex word boundary just before index i, for a pattern whose first
character is a word character. -/
def bndBefore (t : List Char) (i : Nat) : Bool :=
  i = 0 || !isWordChar (chAt t (i - 1))

/-- Regex word boundary just after the end j of a match whose last
character is a word character: end of text or a non-word character. -/
def bndAfterWord (t : List Char) (j : Nat) : Bool :=
  j = t.length || !isWordChar (chAt t j)

/-- Literal match at a position. -/
def litAt (lit : List Char) (t : List Char) (i : Nat) : Bool :=
  lit.isPrefixOf (t.drop i)

/-- First index ≥ i holding a non-whitespace character (or the length). -/
def wsMunch (t : List Char) (i : Nat) : Nat :=
  i + ((t.drop i).takeWhile isSpaceChar).length

/-- Slice t[i:j] on natural indices. -/
def sliceN (t : List Char) (i j : Nat) : List Char :=
  (t.drop i).take (j - i)

/-- Python's `sub in s` substring test. -/
def containsSub (hay sub : List Char) : Bool :=
  (List.range (hay.length + 1)).any (fun i => sub.isPrefixOf (hay.drop i))

/-- Charwise lower-casing (Python str.lower on the ASCII fragment). -/
def lowerStr (t : List Char) : List Char := t.map Char.toLower

/-! ## Spacing fixer: fix_spacing_and_adjust_annotations.py

Every pattern in the `fixes` table has the form
`\b lit₁ \s+ lit₂ (\s+ lit₃ …)? \b` (or a single literal), matched
case-sensitively.  Since each literal begins and ends with a letter, the
greedy `\s+` gaps are forced, and the regex semantics reduce to the
structural matcher below. -/

/-- Match the segments of a spacing pattern starting at position i, the
gaps being one-or-more whitespace.  Returns the end position. -/
def segsPlusFrom : List (List Char) → List Char → Nat → Option Nat
  | [], _, i => some i
  | s :: rest, t, i =>
    if litAt s t i then
      match rest with
      | [] => some (i + s.length)
      | _ :: _ =>
        let j := i + s.length
        let p := wsMunch t j
        if j < p then segsPlusFrom rest t p else none
    else none

/-- Full match of a `\b…\s+…\b` pattern at position i. -/
def spacingMatchAt (segs : List (List Char)) (t : List Char) (i : Nat) :
    Option Nat :=
  if bndBefore t i then
    match segsPlusFrom segs t i with
    | none => none
    | some e => if bndAfterWord t e then some e else none
  else none

/-- Scan positions i, i+1, … (fuel-bounded) for the first position where
the pattern matches, as re.search does. -/
def scanSpacingFrom (segs : List (List Char)) (t : List Char) :
    Nat → Nat → Option (Nat × Nat)
  | _, 0 => none
  | i, fuel + 1 =>
    match spacingMatchAt segs t i with
    | some e => some (i, e)
    | none => scanSpacingFrom segs t (i + 1) fuel

/-- Leftmost match of a spacing pattern: re.finditer's first hit.  The
fuel covers the positions 0 … length that re.search scans. -/
def scanSpacing (segs : List (List Char)) (t : List Char) :
    Option (Nat × Nat) :=
  scanSpacingFrom segs t 0 (t.length + 1)

/-- One replacement rule of the `fixes` table. -/
structure FixRule where
  segs : List String
  repl : String
deriving DecidableEq

/-- The `fixes` table of fix_spacing_with_annotations, in source order. -/
def fixesTable : List FixRule := [
  ⟨["Anto", "nini"], "Antonini"⟩,
  ⟨["Aure", "li"], "Aureli"⟩,
  ⟨["Aure", "lius"], "Aurelius"⟩,
  ⟨["Aure", "lio"], "Aurelio"⟩,
  ⟨["Lucretiu", "s"], "Lucretius"⟩,
  ⟨["Caturoni", "s"], "Caturonis"⟩,
  ⟨["Corn", "elius"], "Cornelius"⟩,
  ⟨["Corn", "elia"], "Cornelia"⟩,
  ⟨["hic", "sita", "e", "st"], "hic sita est"⟩,
  ⟨["sita", "e", "st"], "sita est"⟩,
  ⟨["situs", "e", "st"], "situs est"⟩,
  ⟨["an", "norum"], "annorum"⟩,
  ⟨["an", "nos"], "annos"⟩,
  ⟨["an", "nis"], "annis"⟩,
  ⟨["an", "num"], "annum"⟩,
  ⟨["an", "no"], "anno"⟩,
  ⟨["men", "sis"], "mensis"⟩,
  ⟨["men", "ses"], "menses"⟩,
  ⟨["men", "sibus"], "mensibus"⟩,
  ⟨["die", "bus"], "diebus"⟩,
  ⟨["die", "rum"], "dierum"⟩,
  ⟨["vix", "it"], "vixit"⟩,
  ⟨["vix", "sit"], "vixit"⟩,
  ⟨["vi", "xit"], "vixit"⟩,
  ⟨["vi", "vus"], "vivus"⟩,
  ⟨["fe", "cit"], "fecit"⟩,
  ⟨["fe", "cerunt"], "fecerunt"⟩,
  ⟨["po", "suit"], "posuit"⟩,
  ⟨["milita", "vit"], "militavit"⟩,
  ⟨["fili", "o"], "filio"⟩,
  ⟨["fili", "us"], "filius"⟩,
  ⟨["fili", "a"], "filia"⟩,
  ⟨["fili", "ae"], "filiae"⟩,
  ⟨["fili", "i"], "filii"⟩,
  ⟨["uxo", "ri"], "uxori"⟩,
  ⟨["coniu", "gi"], "coniugi"⟩,
  ⟨["coniu", "x"], "coniux"⟩,
  ⟨["pat", "ri"], "patri"⟩,
  ⟨["mat", "ri"], "matri"⟩,
  ⟨["cari", "ssimo"], "carissimo"⟩,
  ⟨["cari", "ssimae"], "carissimae"⟩,
  ⟨["cari", "ssimi"], "carissimi"⟩,
  ⟨["dulcis", "simo"], "dulcissimo"⟩,
  ⟨["dulcis", "simae"], "dulcissimae"⟩,
  ⟨["dulcis", "simi"], "dulcissimi"⟩,
  ⟨["pientis", "simo"], "pientissimo"⟩,
  ⟨["pientis", "simae"], "pientissimae"⟩,
  ⟨["pientis", "simi"], "pientissimi"⟩,
  ⟨["sanctis", "simae"], "sanctissimae"⟩,
  ⟨["optim", "o"], "optimo"⟩,
  ⟨["optim", "ae"], "optimae"⟩,
  ⟨["patri", "bus"], "patribus"⟩,
  ⟨["liberto", "rum"], "libertorum"⟩,
  ⟨["liberto", "o"], "libertoo"⟩,
  ⟨["mer", "enti"], "merenti"⟩,
  ⟨["mer", "ito"], "merito"⟩,
  ⟨["messibus"], "mensibus"⟩]

/-- A recorded text change: match start, match end (both in the text
current at replacement time) and the length delta of the replacement. -/
structure Adjustment where
  astart : Nat
  aend : Nat
  delta : Int
deriving DecidableEq

/-- A span annotation [start, stop) with a label; `astop` is the
exclusive end (named so because `end` is reserved in Lean). -/
structure Ann where
  astart : Int
  astop : Int
  label : String
deriving DecidableEq

/-- One step of the fixing loop: replace the first occurrence of one
pattern in the current text and record the change. -/
def applyRule (acc : List Char × List Adjustment) (r : FixRule) :
    List Char × List Adjustment :=
  match scanSpacing (r.segs.map String.data) acc.1 with
  | none => acc
  | some (s, e) =>
    let repl := r.repl.data
    (acc.1.take s ++ repl ++ acc.1.drop e,
     acc.2 ++ [⟨s, e, (repl.length : Int) - ((e - s : Nat) : Int)⟩])

/-- First loop of fix_spacing_with_annotations: apply every rule of the
table once (first occurrence only), accumulating the changed text and
the recorded adjustments, in pattern-table order. -/
def collectFixes (t : List Char) : List Char × List Adjustment :=
  fixesTable.foldl applyRule (t, [])

/-- Offset-correction of one annotation by one recorded change.  The
comparisons use the annotation's original start s and stop e; the
updates apply to the running pair. -/
def applyAdj (s e : Int) (st : Int × Int) (a : Adjustment) : Int × Int :=
  if (a.aend : Int) ≤ s then (st.1 + a.delta, st.2 + a.delta)
  else if (a.astart : Int) ≤ s ∧ s < (a.aend : Int) then
    ((a.astart : Int), st.2 + a.delta)
  else if s < (a.astart : Int) ∧ (a.astart : Int) < e then
    (st.1, st.2 + a.delta)
  else st

/-- Recompute the span of one annotation across all recorded changes,
in the order they were recorded. -/
def adjustSpan (adjs : List Adjustment) (a : Ann) : Int × Int :=
  adjs.foldl (applyAdj a.astart a.astop) (a.astart, a.astop)

/-- fix_spacing_with_annotations: fixed text, adjusted annotations
(invalid recomputed spans dropped) and the recorded change log. -/
def fixSpacingWithAnns (t : List Char) (anns : List Ann) :
    List Char × List Ann × List Adjustment :=
  let fixesOut := collectFixes t
  let adjusted := anns.filterMap (fun a =>
    let ns := (adjustSpan fixesOut.2 a).1
    let ne := (adjustSpan fixesOut.2 a).2
    if 0 ≤ ns ∧ ns < ne ∧ ne ≤ (fixesOut.1.length : Int) then
      some ⟨ns, ne, a.label⟩
    else none)
  (fixesOut.1, adjusted, fixesOut.2)

/-! ## Stable sorting

Python's list.sort is a stable sort by key.  Any stable sort by the same
key is extensionally identical, so it is embedded as the classic stable
insertion sort: an element is inserted after every earlier element whose
key is strictly smaller, and before equal keys of later elements. -/

/-- Insert x before the first element y with ¬ lt y x (stable insertion
for the strict key-order lt). -/
def insPre (lt : α → α → Bool) (x : α) : List α → List α
  | [] => [x]
  | y :: ys => if lt y x then y :: insPre lt x ys else x :: y :: ys

/-- Stable insertion sort for the strict key-order lt. -/
def sortStable (lt : α → α → Bool) : List α → List α
  | [] => []
  | x :: xs => insPre lt x (sortStable lt xs)

/-- Strict order on the recorded adjustments by text position (used only
to express the "applied in text order" reading of the spec). -/
def adjLt (x y : Adjustment) : Bool := x.astart < y.astart

/-! ## Annotation reconciliation: fix_annotations_v3.py -/

/-- normalize_text: lower-case and strip surrounding whitespace. -/
def normTxt (w : List Char) : List Char :=
  (((w.map Char.toLower).dropWhile isSpaceChar).reverse.dropWhile
    isSpaceChar).reverse

/-- extract_text: the span's surface text, or empty when out of range. -/
def extractText (t : List Char) (s e : Int) : List Char :=
  if 0 ≤ s ∧ s < e ∧ e ≤ (t.length : Int) then
    sliceN t s.toNat e.toNat
  else []

/-- Adjective lexicon of should_remove_word. -/
def adjectivesSet : List (List Char) :=
  (["pia", "pius", "piae", "pii", "pientissimo", "pientissimae", "pientis",
    "carissimae", "carissimo", "carissimi", "carissimus",
    "dulcissimo", "dulcissimae", "dulcissimi", "dulcissimus",
    "optimo", "optimae", "optimi", "optimus",
    "sanctissimae", "sancto", "sanctae", "sanctus",
    "fidelissimo", "fidelissimae",
    "incomparabili", "incomparabilissimis",
    "clarissimi", "egregio",
    "benemerenti", "bene", "merenti", "merito", "meritae"] :
      List String).map String.data

/-- Pronoun/particle lexicon of should_remove_word. -/
def particlesSet : List (List Char) :=
  (["quae", "qui", "cum", "quo", "qua",
    "sine", "ulla", "omnibus",
    "intra", "neque", "unquam",
    "et", "ob", "de", "ex", "in", "ad"] : List String).map String.data

/-- Labels for which should_remove_word applies. -/
def removalLabels : List String :=
  ["COGNOMEN", "NOMEN", "RELATIONSHIP", "DEDICATOR_NAME"]

/-- should_remove_word: drop common adjectives/particles mislabeled as
name or relationship entities. -/
def shouldRemoveWord (w : List Char) (lab : String) : Bool :=
  if lab ∈ removalLabels then
    decide (normTxt w ∈ adjectivesSet ++ particlesSet)
  else false

/-- One formula pattern: literal segments, separated by \s+ (opt=false)
or \s* (opt=true), with a word boundary on each side. -/
structure FormulaRule where
  segs : List String
  opt : Bool
  label : String
deriving DecidableEq

/-- The formula table of find_and_merge_formulas, in source order. -/
def formulaRules : List FormulaRule := [
  ⟨["dis", "manibus", "sacrum"], false, "DEDICATION_TO_THE_GODS"⟩,
  ⟨["dis", "manibus"], false, "DEDICATION_TO_THE_GODS"⟩,
  ⟨["d", "m", "s"], true, "DEDICATION_TO_THE_GODS"⟩,
  ⟨["d", "m"], true, "DEDICATION_TO_THE_GODS"⟩,
  ⟨["hic", "situs", "est"], false, "FUNERARY_FORMULA"⟩,
  ⟨["hic", "sita", "est"], false, "FUNERARY_FORMULA"⟩,
  ⟨["h", "s", "e"], true, "FUNERARY_FORMULA"⟩,
  ⟨["sit", "tibi", "terra", "levis"], false, "FUNERARY_FORMULA"⟩,
  ⟨["s", "t", "t", "l"], true, "FUNERARY_FORMULA"⟩,
  ⟨["bene", "merenti"], false, "BENE_MERENTI"⟩,
  ⟨["bene", "merito"], false, "BENE_MERENTI"⟩,
  ⟨["b", "m"], true, "BENE_MERENTI"⟩,
  ⟨["iovi", "optimo", "maximo"], false, "DEDICATION_TO_THE_GODS"⟩,
  ⟨["i", "o", "m"], true, "DEDICATION_TO_THE_GODS"⟩]

/-- Match the segments of a formula pattern from position i; the gaps
are \s* (opt) or \s+.  Every segment starts with a letter, so the greedy
whitespace munch is forced. -/
def segsGapFrom (opt : Bool) : List (List Char) → List Char → Nat → Option Nat
  | [], _, i => some i
  | s :: rest, t, i =>
    if litAt s t i then
      match rest with
      | [] => some (i + s.length)
      | _ :: _ =>
        let j := i + s.length
        let p := wsMunch t j
        if opt then segsGapFrom opt rest t p
        else if j < p then segsGapFrom opt rest t p else none
    else none

/-- Full match of a \b…\b formula pattern at position i. -/
def formulaMatchAt (r : FormulaRule) (t : List Char) (i : Nat) :
    Option Nat :=
  if bndBefore t i then
    match segsGapFrom r.opt (r.segs.map String.data) t i with
    | none => none
    | some e => if bndAfterWord t e then some e else none
  else none

/-- First match of a formula pattern at a position ≥ i. -/
def formulaFindFrom (r : FormulaRule) (t : List Char) :
    Nat → Nat → Option (Nat × Nat)
  | _, 0 => none
  | i, fuel + 1 =>
    match formulaMatchAt r t i with
    | some e => some (i, e)
    | none => formulaFindFrom r t (i + 1) fuel

/-- re.finditer: all non-overlapping matches, scanning left to right and
resuming at the end of each match. -/
def formulaIter (r : FormulaRule) (t : List Char) :
    Nat → Nat → List (Nat × Nat)
  | _, 0 => []
  | p, fuel + 1 =>
    match formulaFindFrom r t p (t.length + 1 - p) with
    | none => []
    | some (s, e) => (s, e) :: formulaIter r t e fuel

/-- Strict key order (start, −length) used to sort formula matches. -/
def formulaLt (x y : Ann) : Bool :=
  x.astart < y.astart ||
    (x.astart = y.astart && y.astop - y.astart < x.astop - x.astart)

/-- Python's span-overlap test from find_and_merge_formulas. -/
def overlapsB (f ex : Ann) : Bool :=
  !(f.astop ≤ ex.astart || f.astart ≥ ex.astop)

/-- Greedy overlap removal: keep a formula iff it overlaps none already
kept. -/
def greedyKeep (l : List Ann) : List Ann :=
  l.foldl (fun acc f =>
    if acc.any (fun ex => overlapsB f ex) then acc else acc ++ [f]) []

/-- find_and_merge_formulas: scan the lower-cased transcription with
every formula pattern, sort all matches by (start, −length), and keep
greedily the non-overlapping ones. -/
def findAndMergeFormulas (t : List Char) : List Ann :=
  let lowT := lowerStr t
  let raw := formulaRules.foldl (fun acc r =>
    acc ++ (formulaIter r lowT 0 (lowT.length + 1)).map
      (fun se => ⟨(se.1 : Int), (se.2 : Int), r.label⟩)) []
  greedyKeep (sortStable formulaLt raw)

/-- Age-marker words forced to AGE_PREFIX. -/
def agePrefixWords : List (List Char) :=
  (["vixit", "vix", "vivus",
    "annos", "annorum", "annis", "anno", "annum",
    "mensibus", "menses",
    "diebus", "dies"] : List String).map String.data

/-- Kinship words forced to RELATIONSHIP. -/
def relationshipWords : List (List Char) :=
  (["coniugi", "conivx", "coniux", "uxori", "uxor", "marito",
    "pater", "mater", "patri", "matri", "parentes",
    "libertus", "liberta", "liberti", "libertae", "liberto",
    "patrono", "patronus", "patronae",
    "frater", "fratri", "soror",
    "filius", "filia", "filii", "filiae", "filio",
    "conservae"] : List String).map String.data

/-- Dedication verbs forced to FUNERARY_FORMULA. -/
def funeraryWords : List (List Char) :=
  (["fecit", "fecerunt", "posuit", "posuerunt",
    "curavit", "curaverunt", "faciendum"] : List String).map String.data

/-- The sequential label fixes of pass 1 (the last matching set wins,
as in the Python chain of if-statements). -/
def relabelWord (wLower : List Char) (lab : String) : String :=
  if wLower ∈ funeraryWords then "FUNERARY_FORMULA"
  else if wLower ∈ relationshipWords then "RELATIONSHIP"
  else if wLower ∈ agePrefixWords then "AGE_PREFIX"
  else lab

/-- Age-category labels subject to the measurement-context check. -/
def ageLabels : List String :=
  ["AGE_PREFIX", "AGE_YEARS", "AGE_MONTHS", "AGE_DAYS"]

/-- The ±30-character context of a span, lower-cased. -/
def ctxOf (t : List Char) (s e : Int) : List Char :=
  lowerStr (sliceN t (max 0 (s - 30)).toNat
    (min (t.length : Int) (e + 30)).toNat)

/-- The measurement-phrase context test of pass 1. -/
def measurementCtx (t : List Char) (s e : Int) : Bool :=
  let ctx := ctxOf t s e
  (containsSub ctx "pedes".data && containsSub ctx "fronte".data) ||
    (containsSub ctx "locus".data && containsSub ctx "pedum".data)

/-- The span of an annotation. -/
def spanOf (a : Ann) : Int × Int := (a.astart, a.astop)

/-- The formula-subsumption test of pass 1: the span lies inside some
formula span. -/
def insideSp (fspans : List (Int × Int)) (sp : Int × Int) : Bool :=
  fspans.any (fun fs => sp.1 ≥ fs.1 && sp.2 ≤ fs.2)

/-- The label fix of pass 1 applied to a whole annotation. -/
def relabAnn (t : List Char) (a : Ann) : Ann :=
  ⟨a.astart, a.astop,
    relabelWord (normTxt (extractText t a.astart a.astop)) a.label⟩

/-- Pass 1 of fix_single_annotation on one annotation: drop invalid
spans, adjective/particle mislabels, spans inside a formula and age
spans in measurement context; otherwise fix the label. -/
def pass1Step (t : List Char) (fspans : List (Int × Int)) (a : Ann) :
    Option Ann :=
  if a.astart ≥ a.astop ∨ a.astart < 0 ∨ a.astop > (t.length : Int) then
    none
  else
    let etext := extractText t a.astart a.astop
    if etext = [] then none
    else if shouldRemoveWord etext a.label then none
    else if insideSp fspans (spanOf a) then none
    else if a.label ∈ ageLabels ∧ measurementCtx t a.astart a.astop then
      none
    else some (relabAnn t a)

/-- re.match(r'^[IVX]+$', s): one or more of I, V, X spanning the whole
string, tolerating one final newline (the $ semantics of Python re). -/
def isRomanIVX (l : List Char) : Bool :=
  let core := if l.getLast? = some '\n' then l.dropLast else l
  !core.isEmpty && core.all (fun c => c = 'I' || c = 'V' || c = 'X')

/-- Strict key order (start only) used to sort annotations in pass 3. -/
def annLt (x y : Ann) : Bool := x.astart < y.astart

/-- Pass 3: relabel a Roman-numeral span as AGE_YEARS when the previous
kept annotation is an AGE_PREFIX.  prev is the label of the previously
emitted annotation (none at the first position). -/
def pass3Go (t : List Char) : Option String → List Ann → List Ann
  | _, [] => []
  | prev, a :: rest =>
    let etext := extractText t a.astart a.astop
    let lab :=
      if isRomanIVX etext ∧ prev = some "AGE_PREFIX" then "AGE_YEARS"
      else a.label
    ⟨a.astart, a.astop, lab⟩ :: pass3Go t (some lab) rest

/-- fix_single_annotation: empty input short-circuits; otherwise filter
and relabel (pass 1), append the formula annotations (pass 2), sort by
start and apply the AGE_YEARS rule (pass 3). -/
def fixSingleAnn (t : List Char) (anns : List Ann) : List Ann :=
  match anns with
  | [] => []
  | _ :: _ =>
    let formulas := findAndMergeFormulas t
    let fspans := formulas.map (fun f => (f.astart, f.astop))
    let filtered := anns.filterMap (pass1Step t fspans) ++ formulas
    pass3Go t none (sortStable annLt filtered)

/-- The action of one further reconciliation pass on an already
reconciled annotation: formula spans are untouched, all others get the
pass-1 label fix again. -/
def hFun (t : List Char) (fs : List (Int × Int)) (x : Ann) : Ann :=
  if insideSp fs (spanOf x) then x else relabAnn t x

/-! ## Pattern extraction stub: latinepi/parser.py -/

/-- An extracted entity: value and confidence (floats as rationals). -/
structure PEnt where
  value : String
  confidence : Rat
deriving DecidableEq

/-!  The confidence constants of the sources, as rationals in lowest
terms built by the constructor (so that they evaluate inside the
kernel; the division form of each is proved as a bridge lemma below).
qNNN stands for the float 0.NN of the Python source. -/

/-- 0.05 -/
def q005 : Rat := Rat.mk' 1 20 (by norm_num) (by norm_num)
/-- 0.50 -/
def q050 : Rat := Rat.mk' 1 2 (by norm_num) (by norm_num)
/-- 0.75 -/
def q075 : Rat := Rat.mk' 3 4 (by norm_num) (by norm_num)
/-- 0.82 -/
def q082 : Rat := Rat.mk' 41 50 (by norm_num) (by norm_num)
/-- 0.85 -/
def q085 : Rat := Rat.mk' 17 20 (by norm_num) (by norm_num)
/-- 0.88 -/
def q088 : Rat := Rat.mk' 22 25 (by norm_num) (by norm_num)
/-- 0.90 -/
def q090 : Rat := Rat.mk' 9 10 (by norm_num) (by norm_num)
/-- 0.92 -/
def q092 : Rat := Rat.mk' 23 25 (by norm_num) (by norm_num)
/-- 0.95 -/
def q095 : Rat := Rat.mk' 19 20 (by norm_num) (by norm_num)
/-- 0.98 -/
def q098 : Rat := Rat.mk' 49 50 (by norm_num) (by norm_num)
/-- 0.99 -/
def q099 : Rat := Rat.mk' 99 100 (by norm_num) (by norm_num)

/-- A-Z test for the character classes of the parser regexes. -/
def isAZ (c : Char) : Bool := 'A' ≤ c && c ≤ 'Z'

/-- str.replace: replace all occurrences, scanning left to right.  The
fuel bounds the recursion depth (each step shortens the list, so the
list length is enough fuel); it makes the recursion structural so that
the definition evaluates inside the kernel. -/
def replaceSubGo (pat repl : List Char) : Nat → List Char → List Char
  | _, [] => []
  | 0, l => l
  | fuel + 1, c :: cs =>
    if pat ≠ [] ∧ pat.isPrefixOf (c :: cs) then
      repl ++ replaceSubGo pat repl fuel ((c :: cs).drop pat.length)
    else c :: replaceSubGo pat repl fuel cs

/-- str.replace with adequate fuel. -/
def replaceSub (pat repl l : List Char) : List Char :=
  replaceSubGo pat repl l.length l

/-- re.sub(r'\s+', ' ', ·): collapse every whitespace run to one space.
The flag records whether the previous character was whitespace. -/
def collapseWs : Bool → List Char → List Char
  | _, [] => []
  | p, c :: cs =>
    if isSpaceChar c then
      if p then collapseWs true cs else ' ' :: collapseWs true cs
    else c :: collapseWs false cs

/-- The normalization of _extract_entities_stub: upper-case, V→U,
line-break markers to spaces, whitespace collapsed. -/
def normStub (t : List Char) : List Char :=
  collapseWs false
    (replaceSub "<BR/>".data [' ']
      (replaceSub "<BR>".data [' ']
        ((t.map Char.toUpper).map (fun c => if c = 'V' then 'U' else c))))

/-- Match of the status pattern ^[^A-Z]*\bD\s*M\s*S?\b.  The [^A-Z]*
run stops exactly at the first A-Z character, which must be a D at a
word boundary; after the M, either a boundary follows directly (empty
S? and possibly whitespace) or whitespace-then-S ends at a boundary. -/
def statusHit (t : List Char) : Bool :=
  match (List.range t.length).find? (fun i => isAZ (chAt t i)) with
  | none => false
  | some f =>
    chAt t f = 'D' && bndBefore t f &&
      (let m := wsMunch t (f + 1)
       decide (m < t.length) && chAt t m = 'M' &&
         (bndAfterWord t (m + 1) ||
           (let q := wsMunch t (m + 1)
            chAt t q = 'S' && bndAfterWord t (q + 1))))

/-- One praenomen pattern: optional (?<!D\s) lookbehind, alternative
literal cores, an optional literal dot, then \s+ and a lookahead
requiring `ahead` consecutive A-Z characters. -/
structure PraeRule where
  lbD : Bool
  alts : List String
  hasDot : Bool
  ahead : Nat
  pname : String
  conf : Rat

/-- The fixed-width lookbehind D\s just before position i. -/
def lookbehindD (t : List Char) (i : Nat) : Bool :=
  decide (2 ≤ i) && chAt t (i - 2) = 'D' && isSpaceChar (chAt t (i - 1))

/-- Match of one praenomen pattern at position i. -/
def praeHitAt (t : List Char) (r : PraeRule) (i : Nat) : Bool :=
  (!r.lbD || !lookbehindD t i) && bndBefore t i &&
    r.alts.any (fun core =>
      let cl := core.data
      litAt cl t i &&
        (!r.hasDot || chAt t (i + cl.length) = '.') &&
          (let j := i + cl.length + (if r.hasDot then 1 else 0)
           let p := wsMunch t j
           decide (j < p) &&
             (List.range r.ahead).all (fun k => isAZ (chAt t (p + k)))))

/-- The praenomen table, in source order.  [UU] classes collapse to U. -/
def praeTable : List PraeRule := [
  ⟨true, ["C", "G"], true, 1, "Gaius", q090⟩,
  ⟨true, ["L"], true, 1, "Lucius", q090⟩,
  ⟨true, ["M"], true, 1, "Marcus", q090⟩,
  ⟨true, ["T"], true, 1, "Titus", q090⟩,
  ⟨true, ["P"], true, 1, "Publius", q090⟩,
  ⟨true, ["Q"], true, 1, "Quintus", q090⟩,
  ⟨true, ["SEX"], true, 1, "Sextus", q090⟩,
  ⟨true, ["A"], true, 1, "Aulus", q088⟩,
  ⟨true, ["D"], true, 1, "Decimus", q088⟩,
  ⟨true, ["CN"], true, 1, "Gnaeus", q090⟩,
  ⟨true, ["C", "G"], false, 4, "Gaius", q088⟩,
  ⟨true, ["L"], false, 4, "Lucius", q088⟩,
  ⟨true, ["M"], false, 4, "Marcus", q088⟩,
  ⟨true, ["T"], false, 4, "Titus", q088⟩,
  ⟨true, ["P"], false, 4, "Publius", q088⟩,
  ⟨false, ["GAIUS"], false, 4, "Gaius", q092⟩,
  ⟨false, ["LUCIUS"], false, 4, "Lucius", q092⟩,
  ⟨false, ["MARCUS"], false, 4, "Marcus", q092⟩,
  ⟨false, ["TITUS"], false, 4, "Titus", q092⟩,
  ⟨false, ["PUBLIUS"], false, 4, "Publius", q092⟩,
  ⟨false, ["QUINTUS"], false, 4, "Quintus", q092⟩,
  ⟨false, ["SEXTUS"], false, 4, "Sextus", q092⟩,
  ⟨false, ["AULUS"], false, 4, "Aulus", q090⟩,
  ⟨false, ["DECIMUS"], false, 4, "Decimus", q090⟩,
  ⟨false, ["GNAEUS"], false, 4, "Gnaeus", q092⟩]

/-- First praenomen rule with a match anywhere in the text. -/
def praeFind (t : List Char) : Option (String × Rat) :=
  praeTable.findSome? (fun r =>
    if (List.range (t.length + 1)).any (praeHitAt t r) then
      some (r.pname, r.conf)
    else none)

/-- A word-list pattern \bCORE[E]?\b (the optional E is the feminine
genitive); a core ending in a literal dot needs a following word
character for its closing boundary. -/
structure WordRule where
  core : String
  optE : Bool
  wname : String
  conf : Rat

/-- Closing word boundary after a literal whose last character is c. -/
def bndAfterLit (t : List Char) (c : Char) (j : Nat) : Bool :=
  if isWordChar c then bndAfterWord t j
  else decide (j < t.length) && isWordChar (chAt t j)

/-- Match of one word rule at position i. -/
def wordHitAt (t : List Char) (r : WordRule) (i : Nat) : Bool :=
  let cl := r.core.data
  bndBefore t i && litAt cl t i &&
    (let j := i + cl.length
     if r.optE then
       (chAt t j = 'E' && bndAfterWord t (j + 1)) || bndAfterWord t j
     else bndAfterLit t (cl.getLastD ' ') j)

/-- First word rule of a table with a match anywhere in the text. -/
def wordFind (table : List WordRule) (t : List Char) :
    Option (String × Rat) :=
  table.findSome? (fun r =>
    if (List.range (t.length + 1)).any (wordHitAt t r) then
      some (r.wname, r.conf)
    else none)

/-- The nomen table (feminine forms first), in source order. -/
def nomenTable : List WordRule := [
  ⟨"AEMILIA", true, "Aemilia", q088⟩,
  ⟨"CLAUDIA", true, "Claudia", q088⟩,
  ⟨"UALERIA", true, "Valeria", q088⟩,
  ⟨"ULPIA", true, "Ulpia", q088⟩,
  ⟨"AURELIA", true, "Aurelia", q088⟩,
  ⟨"CORNELIA", true, "Cornelia", q088⟩,
  ⟨"IULIA", true, "Iulia", q088⟩,
  ⟨"FLAUIA", true, "Flavia", q088⟩,
  ⟨"FABIA", true, "Fabia", q088⟩,
  ⟨"DOMITIA", true, "Domitia", q088⟩,
  ⟨"LICINIA", true, "Licinia", q088⟩,
  ⟨"IUNIA", true, "Iunia", q088⟩,
  ⟨"CAECILIA", true, "Caecilia", q088⟩,
  ⟨"IULIUS", false, "Iulius", q088⟩,
  ⟨"FLAUIUS", false, "Flavius", q088⟩,
  ⟨"AEMILIUS", false, "Aemilius", q088⟩,
  ⟨"ANTONIUS", false, "Antonius", q088⟩,
  ⟨"CLAUDIUS", false, "Claudius", q088⟩,
  ⟨"UALERIUS", false, "Valerius", q088⟩,
  ⟨"ULPIUS", false, "Ulpius", q088⟩,
  ⟨"AURELIUS", false, "Aurelius", q088⟩,
  ⟨"SEMPRONIUS", false, "Sempronius", q088⟩,
  ⟨"AELIUS", false, "Aelius", q088⟩,
  ⟨"CORNELIUS", false, "Cornelius", q088⟩,
  ⟨"FABIUS", false, "Fabius", q088⟩,
  ⟨"DOMITIUS", false, "Domitius", q088⟩,
  ⟨"LICINIUS", false, "Licinius", q088⟩,
  ⟨"IUNIUS", false, "Iunius", q088⟩,
  ⟨"CAECILIUS", false, "Caecilius", q088⟩,
  ⟨"POMPEIUS", false, "Pompeius", q088⟩,
  ⟨"SERUILIUS", false, "Servilius", q088⟩,
  ⟨"TEREHTIUS", false, "Terentius", q088⟩]

/-- The cognomen table, in source order. -/
def cognomenTable : List WordRule := [
  ⟨"CAESAR", false, "Caesar", q090⟩,
  ⟨"ALEXANDER", false, "Alexander", q090⟩,
  ⟨"SATURNINUS", false, "Saturninus", q090⟩,
  ⟨"TERTULLA", true, "Tertulla", q090⟩,
  ⟨"MAXIMA", true, "Maxima", q090⟩,
  ⟨"MAXIMUS", false, "Maximus", q090⟩,
  ⟨"REST ITUTA", true, "Restituta", q090⟩,
  ⟨"MARCELLA", true, "Marcella", q090⟩,
  ⟨"MARCELLUS", false, "Marcellus", q090⟩,
  ⟨"RUFUS", false, "Rufus", q090⟩,
  ⟨"RUFA", true, "Rufa", q090⟩,
  ⟨"SEUERA", true, "Severa", q090⟩,
  ⟨"SEUERUS", false, "Severus", q090⟩,
  ⟨"PRIMUS", false, "Primus", q090⟩,
  ⟨"PRIMA", true, "Prima", q090⟩,
  ⟨"SECUNDUS", false, "Secundus", q090⟩,
  ⟨"SECUNDA", true, "Secunda", q090⟩,
  ⟨"TERTIUS", false, "Tertius", q090⟩,
  ⟨"TERTIA", true, "Tertia", q090⟩,
  ⟨"QUARTUS", false, "Quartus", q090⟩,
  ⟨"QUARTA", true, "Quarta", q090⟩,
  ⟨"QUINTUS", false, "Quintus", q090⟩,
  ⟨"QUINTA", true, "Quinta", q090⟩,
  ⟨"SABINA", true, "Sabina", q090⟩,
  ⟨"SABINUS", false, "Sabinus", q090⟩,
  ⟨"TURPILIA", true, "Turpilia", q090⟩,
  ⟨"UICTOR", false, "Victor", q090⟩,
  ⟨"UICTORIA", true, "Victoria", q090⟩,
  ⟨"FELIX", false, "Felix", q090⟩,
  ⟨"FAUSTINA", true, "Faustina", q090⟩,
  ⟨"FAUSTUS", false, "Faustus", q090⟩,
  ⟨"CLEMENS", false, "Clemens", q090⟩,
  ⟨"CRISPUS", false, "Crispus", q090⟩,
  ⟨"CRISPINA", true, "Crispina", q090⟩,
  ⟨"FRONTO", false, "Fronto", q090⟩,
  ⟨"GALLUS", false, "Gallus", q090⟩,
  ⟨"LONGUS", false, "Longus", q090⟩,
  ⟨"LONGINA", true, "Longina", q090⟩,
  ⟨"NIGER", false, "Niger", q090⟩,
  ⟨"PAULUS", false, "Paulus", q090⟩,
  ⟨"PAULA", true, "Paula", q090⟩,
  ⟨"PRISCUS", false, "Priscus", q090⟩,
  ⟨"PRISCA", true, "Prisca", q090⟩,
  ⟨"REGINA", true, "Regina", q090⟩,
  ⟨"REGINO", false, "Reginus", q090⟩]

/-- The relationship table, in source order. -/
def relTable : List WordRule := [
  ⟨"PATRI", false, "father", q090⟩,
  ⟨"MATRI", false, "mother", q090⟩,
  ⟨"FILIA", true, "daughter", q090⟩,
  ⟨"FILIO", false, "son", q090⟩,
  ⟨"CONIUGI", false, "wife", q090⟩,
  ⟨"HERES", false, "heir", q088⟩]

/-- The location table, in source order. -/
def locTable : List WordRule := [
  ⟨"ROMA", true, "Rom", q085⟩,
  ⟨"OSTIA", true, "Ostia", q085⟩,
  ⟨"POMPEII", false, "Pompeii", q085⟩,
  ⟨"NEAPOLI", false, "Neapolis", q085⟩,
  ⟨"AQUINCI", false, "Aquincum", q085⟩,
  ⟨"CART HAGINE", false, "Carthage", q085⟩,
  ⟨"LUGDUNI", false, "Lugdunum", q085⟩,
  ⟨"MEDIOLANI", false, "Mediolanum", q085⟩,
  ⟨"RAUENNA", true, "Ravenna", q085⟩,
  ⟨"TARRACO", false, "Tarraco", q085⟩]

/-- The tribe table, in source order. -/
def tribeTable : List WordRule := [
  ⟨"FAB.", false, "Fabia", q085⟩,
  ⟨"FABIA", false, "Fabia", q088⟩,
  ⟨"CORN.", false, "Cornelia", q085⟩,
  ⟨"CORNELIA", false, "Cornelia", q088⟩,
  ⟨"PAL.", false, "Palatina", q085⟩,
  ⟨"PALATINA", false, "Palatina", q088⟩,
  ⟨"QUIR.", false, "Quirina", q085⟩,
  ⟨"QUIRINA", false, "Quirina", q088⟩,
  ⟨"TRO.", false, "Tromentina", q085⟩,
  ⟨"TROMENTINA", false, "Tromentina", q088⟩,
  ⟨"COLL.", false, "Collina", q085⟩,
  ⟨"COLLINA", false, "Collina", q088⟩,
  ⟨"ANI.", false, "Aniensis", q085⟩,
  ⟨"ANIENSIS", false, "Aniensis", q088⟩,
  ⟨"CLUST.", false, "Clustumina", q085⟩,
  ⟨"CLUSTUMINA", false, "Clustumina", q088⟩]

/-- First index ≥ i holding a non-A-Z character (or the length). -/
def azMunch (t : List Char) (i : Nat) : Nat :=
  i + ((t.drop i).takeWhile isAZ).length

/-- The optional group (?:\([A-Z]*\))?: consume a well-formed
parenthesis group, else stay (only a consumed group can let the rest of
the pattern match, since the following pieces never match '('). -/
def parenOpt (t : List Char) (p : Nat) : Nat :=
  if chAt t p = '(' then
    let q := azMunch t (p + 1)
    if chAt t q = ')' then q + 1 else p
  else p

/-- The class [IUVXLC] of the years and legion patterns. -/
def isNumChar (c : Char) : Bool :=
  c = 'I' || c = 'U' || c = 'V' || c = 'X' || c = 'L' || c = 'C'

/-- First index ≥ i holding a non-[IUVXLC] character (or the length). -/
def numMunch (t : List Char) (i : Nat) : Nat :=
  i + ((t.drop i).takeWhile isNumChar).length

/-- The years pattern
(?:UIX|AN)(?:\([A-Z]*\))?\s*(?:\([A-Z]*\))?\s*([IUVXLC]+)\b
matched at position i: the captured numeral group, if any. -/
def yearsGroupAt (t : List Char) (i : Nat) : Option (List Char) :=
  (if litAt "UIX".data t i then some (i + 3)
   else if litAt "AN".data t i then some (i + 2)
   else none).bind (fun k =>
    let p1 := parenOpt t k
    let p2 := wsMunch t p1
    let p3 := parenOpt t p2
    let p4 := wsMunch t p3
    let r := numMunch t p4
    if decide (p4 < r) && bndAfterWord t r then some (sliceN t p4 r)
    else none)

/-- re.search for the years pattern: group of the leftmost match. -/
def yearsScanFrom (t : List Char) : Nat → Nat → Option (List Char)
  | _, 0 => none
  | i, fuel + 1 =>
    match yearsGroupAt t i with
    | some g => some g
    | none => yearsScanFrom t (i + 1) fuel

/-- _roman_to_arabic: right-to-left accumulation with subtraction when a
value is smaller than its right neighbour; unknown characters count 0. -/
def romanVal (c : Char) : Nat :=
  if c = 'I' then 1 else if c = 'V' then 5 else if c = 'U' then 5
  else if c = 'X' then 10 else if c = 'L' then 50
  else if c = 'C' then 100 else if c = 'D' then 500
  else if c = 'M' then 1000 else 0

/-- _roman_to_arabic on a numeral string. -/
def romanToArabic (s : List Char) : Int :=
  ((s.map Char.toUpper).reverse.foldl (fun acc c =>
    let v : Int := (romanVal c : Int)
    if v < acc.2 then (acc.1 - v, v) else (acc.1 + v, v))
    ((0 : Int), (0 : Int))).1

/-- The years_lived entity: leftmost years match whose numeral converts
into the range 1–150. -/
def yearsEnt (t : List Char) : List (String × PEnt) :=
  match yearsScanFrom t 0 (t.length + 1) with
  | none => []
  | some g =>
    let n := romanToArabic g
    if 1 ≤ n ∧ n ≤ 150 then [("years_lived", ⟨toString n, q085⟩)]
    else []

/-- CORE(SFX)? with a closing word boundary, for MIL(ES)? and
LEG(IONIS)?. -/
def milOptAt (t : List Char) (core sfx : List Char) (i : Nat) : Bool :=
  litAt core t i &&
    ((litAt sfx t (i + core.length) &&
        bndAfterWord t (i + core.length + sfx.length)) ||
      bndAfterWord t (i + core.length))

/-- Existence of a military keyword \b(MIL(ES)?|CENTURIO|LEG(IONIS)?)\b. -/
def militaryHit (t : List Char) : Bool :=
  (List.range (t.length + 1)).any (fun i =>
    bndBefore t i &&
      (milOptAt t "MIL".data "ES".data i ||
        (litAt "CENTURIO".data t i && bndAfterWord t (i + 8)) ||
        milOptAt t "LEG".data "IONIS".data i))

/-- The legion pattern LEG(?:\([A-Z]*\))?\s+([IUVXLC]+)\s+A[UU]G at
position i: the captured legion numeral, if any. -/
def legionAt (t : List Char) (i : Nat) : Option (List Char) :=
  if litAt "LEG".data t i then
    let p := parenOpt t (i + 3)
    let q := wsMunch t p
    if decide (p < q) then
      let r := numMunch t q
      if decide (q < r) then
        let w := wsMunch t r
        if decide (r < w) && litAt "AUG".data t w then some (sliceN t q r)
        else none
      else none
    else none
  else none

/-- re.search for the legion pattern. -/
def legionScanFrom (t : List Char) : Nat → Nat → Option (List Char)
  | _, 0 => none
  | i, fuel + 1 =>
    match legionAt t i with
    | some g => some g
    | none => legionScanFrom t (i + 1) fuel

/-- The military_service entity. -/
def militaryEnt (t : List Char) : List (String × PEnt) :=
  if militaryHit t then
    match legionScanFrom t 0 (t.length + 1) with
    | some num => [("military_service",
        ⟨"Miles, Legio " ++
          String.mk (num.map (fun c => if c = 'U' then 'V' else c)) ++
          " Augusta", q082⟩)]
    | none => [("military_service", ⟨"Miles", q075⟩)]
  else []

/-- Existence of \bFECIT\b. -/
def fecitHit (t : List Char) : Bool :=
  (List.range (t.length + 1)).any (fun i =>
    bndBefore t i && litAt "FECIT".data t i && bndAfterWord t (i + 5))

/-- The dedicator pattern ([A-Z][A-Z]+(?:\s+[A-Z][A-Z]+)?)\s+FECIT at
position i: the captured name, if any.  The greedy words are maximal
A-Z runs (shorter runs would put a letter where \s+ must match), and
the optional second word is tried first. -/
def dedGroupAt (t : List Char) (i : Nat) : Option (List Char) :=
  let r1 := azMunch t i
  if decide (i + 2 ≤ r1) then
    let s1 := wsMunch t r1
    if decide (r1 < s1) then
      let r2 := azMunch t s1
      if decide (s1 + 2 ≤ r2) &&
          (let s2 := wsMunch t r2
           decide (r2 < s2) && litAt "FECIT".data t s2) then
        some (sliceN t i r2)
      else if litAt "FECIT".data t s1 then some (sliceN t i r1)
      else none
    else none
  else none

/-- re.search for the dedicator pattern. -/
def dedScanFrom (t : List Char) : Nat → Nat → Option (List Char)
  | _, 0 => none
  | i, fuel + 1 =>
    match dedGroupAt t i with
    | some g => some g
    | none => dedScanFrom t (i + 1) fuel

/-- Python str.title on the ASCII fragment: a letter is upper-cased
after a non-letter and lower-cased after a letter. -/
def pyTitleGo : Bool → List Char → List Char
  | _, [] => []
  | p, c :: cs =>
    (if c.isAlpha then (if p then c.toLower else c.toUpper) else c) ::
      pyTitleGo c.isAlpha cs

/-- The dedicator entity (only when FECIT occurs as a word). -/
def dedicatorEnt (t : List Char) : List (String × PEnt) :=
  if fecitHit t then
    match dedScanFrom t 0 (t.length + 1) with
    | some g => [("dedicator",
        ⟨String.mk (pyTitleGo false
          (g.map (fun c => if c = 'U' then 'u' else c))), q075⟩)]
    | none => []
  else []

/-- An optional single entity from a word-table search. -/
def wordEnt (key : String) (table : List WordRule) (t : List Char) :
    List (String × PEnt) :=
  match wordFind table t with
  | some nc => [(key, ⟨nc.1, nc.2⟩)]
  | none => []

/-- The ten extraction categories of _extract_entities_stub, assembled
in dict-insertion order on the normalized text. -/
def stubCore (text : List Char) : List (String × PEnt) :=
  let n := normStub text
  (if statusHit n then [("status", ⟨"dis manibus", q095⟩)] else []) ++
  (match praeFind n with
   | some nc => [("praenomen", ⟨nc.1, nc.2⟩)]
   | none => []) ++
  wordEnt "nomen" nomenTable n ++
  wordEnt "cognomen" cognomenTable n ++
  yearsEnt n ++
  militaryEnt n ++
  wordEnt "relationships" relTable n ++
  dedicatorEnt n ++
  wordEnt "location" locTable n ++
  wordEnt "tribe" tribeTable n

/-- _extract_entities_stub: the categories, or the low-confidence
fallback carrying the first 50 characters when nothing matched. -/
def extractEntitiesStub (text : List Char) : List (String × PEnt) :=
  let es := stubCore text
  if es = [] then [("text", ⟨String.mk (text.take 50), q050⟩)] else es

/-! ## Hybrid parser: latinepi/hybrid_parser.py -/

/-- An entity record of the hybrid parser: value, confidence and the
optional bookkeeping keys the code may attach. -/
structure HEnt where
  value : String
  confidence : Rat
  phase : Option String := none
  alts : List (String × String) := []
  sources : Option (List (String × Rat × String)) := none
  agreement : Option String := none
deriving DecidableEq

/-- Entity mappings are insertion-ordered dictionaries. -/
abbrev EntMap := List (String × HEnt)

/-- Dict lookup (first binding). -/
def lookupA (m : EntMap) (k : String) : Option HEnt :=
  (m.find? (fun kv => kv.1 == k)).map (fun kv => kv.2)

/-- Dict assignment: replace the binding in place, or append. -/
def setA (m : EntMap) (k : String) (v : HEnt) : EntMap :=
  if m.any (fun kv => kv.1 == k) then
    m.map (fun kv => if kv.1 == k then (k, v) else kv)
  else m ++ [(k, v)]

/-- verbose tagging: value['extraction_phase'] = phase_name. -/
def phaseTag (vb : Bool) (ph : String) (v : HEnt) : HEnt :=
  if vb && ph ≠ "" then { v with phase := some ph } else v

/-- One item of the merge loop of _merge_entities. -/
def mergeStep (preferHigher vb : Bool) (ph : String) (m : EntMap)
    (kv : String × HEnt) : EntMap :=
  let v := phaseTag vb ph kv.2
  match lookupA m kv.1 with
  | none => setA m kv.1 v
  | some e =>
    if preferHigher then
      if v.confidence > e.confidence then setA m kv.1 v
      else if v.confidence = e.confidence then
        if vb then setA m kv.1 { e with alts := e.alts ++ [(v.value, ph)] }
        else m
      else m
    else m

/-- _merge_entities: fold the new mapping into the accumulator. -/
def mergeEnts (existing new : EntMap) (preferHigher vb : Bool)
    (ph : String) : EntMap :=
  new.foldl (mergeStep preferHigher vb ph) existing

/-- The slot-variant groups of _consolidate_entities. -/
def entityGroups : List (List String) :=
  [["deceased_name", "deceased_name_morphology", "deceased_name_dependency"],
   ["dedicator", "dedicator_morphology", "dedicator_dependency"],
   ["relationship", "relationship_morphology", "relationship_dependency",
    "deceased_relationship"],
   ["location", "location_morphology"]]

/-- Python max(found, key=confidence): first maximum wins. -/
def bestOf (h0 : String × HEnt) (l : List (String × HEnt)) :
    String × HEnt :=
  l.foldl (fun b x => if x.2.confidence > b.2.confidence then x else b) h0

/-- The confidence_sources provenance list of _consolidate_entities. -/
def srcsOf (found : List (String × HEnt)) : List (String × Rat × String) :=
  found.map (fun ke => (ke.1, ke.2.confidence, ke.2.value))

/-- The consolidated entity of one group, when any variant is found. -/
def groupCons (es : EntMap) (g : List String) : Option (String × HEnt) :=
  let found := g.filterMap (fun k => (lookupA es k).map (fun e => (k, e)))
  match found with
  | [] => none
  | h :: rest =>
    let best := bestOf h rest
    let srcs := srcsOf found
    let base := { best.2 with sources := some srcs }
    let c :=
      if found.length > 1 then
        if rest.all (fun ke => ke.2.value == h.2.value) then
          { base with
            confidence := min q098
              (best.2.confidence + q005 * ((found.length - 1 : Nat) : Rat)),
            agreement := some "high" }
        else { base with agreement := some "low" }
      else base
    some (g.headD "", c)

/-- _consolidate_entities: consolidate each group, then append the
entities belonging to no processed group. -/
def consolidateEnts (es : EntMap) : EntMap :=
  let consGroups := entityGroups.filterMap (groupCons es)
  let processed := entityGroups.foldl (fun acc g =>
    if (g.filterMap (lookupA es)).isEmpty then acc else acc ++ g) []
  es.foldl (fun acc kv =>
    if processed.contains kv.1 || (acc.map (fun c => c.1)).contains kv.1
    then acc
    else acc ++ [kv]) consGroups

/-! ## General lemmas -/

theorem phaseTag_confidence (vb : Bool) (ph : String) (v : HEnt) :
    (phaseTag vb ph v).confidence = v.confidence := by
  rw [phaseTag]
  split <;> rfl

theorem phaseTag_value (vb : Bool) (ph : String) (v : HEnt) :
    (phaseTag vb ph v).value = v.value := by
  rw [phaseTag]
  split <;> rfl

theorem mergeEnts_single (m : EntMap) (k : String) (v : HEnt)
    (preferHigher vb : Bool) (ph : String) :
    mergeEnts m [(k, v)] preferHigher vb ph =
      mergeStep preferHigher vb ph m (k, v) := rfl

theorem sliceN_ne_nil {t : List Char} {i j : Nat} (h1 : i < j)
    (h2 : j ≤ t.length) : sliceN t i j ≠ [] := by
  have : (sliceN t i j).length = min (j - i) (t.length - i) := by
    simp [sliceN]
  intro hnil
  rw [hnil] at this
  simp at this
  omega

theorem extractText_ne_nil {t : List Char} {s e : Int} (h1 : 0 ≤ s)
    (h2 : s < e) (h3 : e ≤ (t.length : Int)) :
    extractText t s e ≠ [] := by
  rw [extractText, if_pos ⟨h1, h2, h3⟩]
  refine sliceN_ne_nil ?_ ?_ <;> omega

theorem scanSpacingFrom_some {segs : List (List Char)} {t : List Char} :
    ∀ {i fuel s e}, scanSpacingFrom segs t i fuel = some (s, e) →
      i ≤ s ∧ spacingMatchAt segs t s = some e ∧
        ∀ j, i ≤ j → j < s → spacingMatchAt segs t j = none := by
  intro i fuel
  induction fuel generalizing i with
  | zero => intro s e h; simp [scanSpacingFrom] at h
  | succ n ih =>
    intro s e h
    rw [scanSpacingFrom] at h
    cases hm : spacingMatchAt segs t i with
    | some e' =>
      rw [hm] at h
      obtain ⟨rfl, rfl⟩ : i = s ∧ e' = e := by
        simpa [Prod.ext_iff] using h
      exact ⟨le_refl _, hm, fun j h1 h2 => absurd h1 (by omega)⟩
    | none =>
      rw [hm] at h
      obtain ⟨h1, h2, h3⟩ := ih h
      refine ⟨by omega, h2, fun j hij hjs => ?_⟩
      rcases Nat.eq_or_lt_of_le hij with rfl | hlt
      · exact hm
      · exact h3 j hlt hjs

theorem fixSpacing_fst (t : List Char) (anns : List Ann) :
    (fixSpacingWithAnns t anns).1 = (collectFixes t).1 := by
  simp only [fixSpacingWithAnns]

theorem fixSpacing_adjs (t : List Char) (anns : List Ann) :
    (fixSpacingWithAnns t anns).2.2 = (collectFixes t).2 := by
  simp only [fixSpacingWithAnns]

theorem fixSpacing_out (t : List Char) (anns : List Ann) :
    (fixSpacingWithAnns t anns).2.1 = anns.filterMap (fun a =>
      if 0 ≤ (adjustSpan (collectFixes t).2 a).1 ∧
          (adjustSpan (collectFixes t).2 a).1 <
            (adjustSpan (collectFixes t).2 a).2 ∧
          (adjustSpan (collectFixes t).2 a).2 ≤
            (((collectFixes t).1).length : Int) then
        some ⟨(adjustSpan (collectFixes t).2 a).1,
          (adjustSpan (collectFixes t).2 a).2, a.label⟩
      else none) := by
  simp only [fixSpacingWithAnns]

/-! ## Claim theorems: spacing fixer -/

/-- C1.  Every annotation returned by fix_spacing_with_annotations has
a valid span 0 ≤ start < end ≤ len(new_text) with a non-empty slice of
the new text, and it is exactly the recomputed version of some input
annotation (the recomputed span is kept as computed or the annotation
is dropped — never repaired). -/
theorem claim_C1_offset_validity (t : List Char) (anns : List Ann)
    (a : Ann) (ha : a ∈ (fixSpacingWithAnns t anns).2.1) :
    (0 ≤ a.astart ∧ a.astart < a.astop ∧
      a.astop ≤ ((fixSpacingWithAnns t anns).1.length : Int) ∧
      sliceN (fixSpacingWithAnns t anns).1 a.astart.toNat a.astop.toNat
        ≠ []) ∧
    ∃ o ∈ anns, a.label = o.label ∧
      a.astart = (adjustSpan (fixSpacingWithAnns t anns).2.2 o).1 ∧
      a.astop = (adjustSpan (fixSpacingWithAnns t anns).2.2 o).2 := by
  obtain ⟨as, ae, lb⟩ := a
  dsimp only at ha ⊢
  rw [fixSpacing_out] at ha
  rw [fixSpacing_fst, fixSpacing_adjs]
  generalize hG : collectFixes t = G at ha ⊢
  obtain ⟨o, ho, hfo⟩ := List.mem_filterMap.mp ha
  by_cases hc : 0 ≤ (adjustSpan G.2 o).1 ∧
      (adjustSpan G.2 o).1 < (adjustSpan G.2 o).2 ∧
      (adjustSpan G.2 o).2 ≤ ((G.1).length : Int)
  · rw [if_pos hc] at hfo
    have hfo' := Option.some_injective _ hfo
    injection hfo' with e1 e2 e3
    subst e1; subst e2; subst e3
    obtain ⟨hc1, hc2, hc3⟩ := hc
    refine ⟨⟨hc1, hc2, hc3, ?_⟩, o, ho, rfl, rfl, rfl⟩
    refine sliceN_ne_nil ?_ ?_ <;> omega
  · rw [if_neg hc] at hfo
    exact absurd hfo (by simp)

/-- C1 witness. -/
theorem claim_C1_offset_validity_witness :
    (0 ≤ ((⟨0, 8, "X"⟩ : Ann)).astart ∧
      (⟨0, 8, "X"⟩ : Ann).astart < (⟨0, 8, "X"⟩ : Ann).astop ∧
      (⟨0, 8, "X"⟩ : Ann).astop ≤
        (((fixSpacingWithAnns "Anto nini".data [⟨0, 9, "X"⟩]).1.length :
          Nat) : Int) ∧
      sliceN (fixSpacingWithAnns "Anto nini".data [⟨0, 9, "X"⟩]).1
        ((⟨0, 8, "X"⟩ : Ann)).astart.toNat
        ((⟨0, 8, "X"⟩ : Ann)).astop.toNat ≠ []) ∧
    ∃ o ∈ [(⟨0, 9, "X"⟩ : Ann)], (⟨0, 8, "X"⟩ : Ann).label = o.label ∧
      (⟨0, 8, "X"⟩ : Ann).astart =
        (adjustSpan (fixSpacingWithAnns "Anto nini".data
          [⟨0, 9, "X"⟩]).2.2 o).1 ∧
      (⟨0, 8, "X"⟩ : Ann).astop =
        (adjustSpan (fixSpacingWithAnns "Anto nini".data
          [⟨0, 9, "X"⟩]).2.2 o).2 :=
  claim_C1_offset_validity "Anto nini".data [⟨0, 9, "X"⟩] ⟨0, 8, "X"⟩
    (by decide)

/-- C7 counterexample.  The fixes table is matched case-sensitively
("Anto\s+nini"), so on the all-caps text "ANTO NINI" of the claim no
pattern fires: the text and the annotation are returned unchanged, and
the returned text is not the "ANTONINI" the claim requires. -/
theorem claim_C7_counterexample :
    fixSpacingWithAnns "ANTO NINI".data [⟨0, 9, "NAME"⟩] =
      ("ANTO NINI".data, [⟨0, 9, "NAME"⟩], []) ∧
    "ANTO NINI".data ≠ "ANTONINI".data := by decide

/-- C7 (amended).  On the mixed-case text "Anto nini" that the fix
table targets, with one annotation [0,9) spanning both fragments,
fix_spacing_with_annotations returns the text "Antonini" and the
annotation [0,8): its start is unchanged and its end is decreased by
exactly 1, the number of removed whitespace characters. -/
theorem claim_C7_amended (lab : String) :
    fixSpacingWithAnns "Anto nini".data [⟨0, 9, lab⟩] =
      ("Antonini".data, [⟨0, 8, lab⟩], [⟨0, 9, -1⟩]) := by
  have h1 : collectFixes "Anto nini".data =
      ("Antonini".data, [⟨0, 9, -1⟩]) := by decide
  have h2 : adjustSpan [⟨0, 9, -1⟩] (⟨0, 9, lab⟩ : Ann) = (0, 8) := by
    simp [adjustSpan, applyAdj]
  simp [fixSpacingWithAnns, h1, h2, List.filterMap_cons]

/-- C3 counterexample.  On "Aure li Anto nini" the pattern table fixes
"Anto nini" (position 8) before "Aure li" (position 0), so the changes
are recorded — and applied to annotations — in pattern-table order, not
in text order: the code maps the annotation [10,17) to [7,15), while
applying the same per-change policy in text order would give [8,15). -/
theorem claim_C3_counterexample :
    (fixSpacingWithAnns "Aure li Anto nini".data [⟨10, 17, "L"⟩]).2.2 =
      [⟨8, 17, -1⟩, ⟨0, 7, -1⟩] ∧
    (fixSpacingWithAnns "Aure li Anto nini".data [⟨10, 17, "L"⟩]).2.1 =
      [⟨7, 15, "L"⟩] ∧
    adjustSpan (sortStable adjLt [⟨8, 17, -1⟩, ⟨0, 7, -1⟩])
      ⟨10, 17, "L"⟩ = (8, 15) ∧
    (7 : Int) ≠ 8 := by decide

/-- C3 (amended).  Each replacement pattern rewrites at most its first
(leftmost) occurrence in the current text; every recorded change is
then applied to every annotation in the order the changes were recorded
(pattern-table order, not text order), with exactly this policy: a
change ending at or before the annotation's start shifts start and end
by the delta; a change covering the annotation's start snaps the start
to the change's start and shifts the end; a change strictly inside the
annotation shifts only the end. -/
theorem claim_C3_change_policy :
    (∀ segs t s e, scanSpacing segs t = some (s, e) →
      spacingMatchAt segs t s = some e ∧
        ∀ j, j < s → spacingMatchAt segs t j = none) ∧
    (∀ (s e ns ne : Int) (ad : Adjustment),
      ((ad.aend : Int) ≤ s →
        applyAdj s e (ns, ne) ad = (ns + ad.delta, ne + ad.delta)) ∧
      ((ad.astart : Int) ≤ s → s < (ad.aend : Int) →
        applyAdj s e (ns, ne) ad = ((ad.astart : Int), ne + ad.delta)) ∧
      (¬ (ad.aend : Int) ≤ s → s < (ad.astart : Int) →
        (ad.astart : Int) < e →
        applyAdj s e (ns, ne) ad = (ns, ne + ad.delta))) ∧
    (∀ t anns, (fixSpacingWithAnns t anns).2.1 = anns.filterMap (fun a =>
      if 0 ≤ (adjustSpan (collectFixes t).2 a).1 ∧
          (adjustSpan (collectFixes t).2 a).1 <
            (adjustSpan (collectFixes t).2 a).2 ∧
          (adjustSpan (collectFixes t).2 a).2 ≤
            (((collectFixes t).1).length : Int) then
        some ⟨(adjustSpan (collectFixes t).2 a).1,
          (adjustSpan (collectFixes t).2 a).2, a.label⟩
      else none)) := by
  refine ⟨?_, ?_, fixSpacing_out⟩
  · intro segs t s e h
    obtain ⟨-, h2, h3⟩ := scanSpacingFrom_some h
    exact ⟨h2, fun j hj => h3 j (Nat.zero_le _) hj⟩
  · intro s e ns ne ad
    refine ⟨fun h => ?_, fun h1 h2 => ?_, fun h1 h2 h3 => ?_⟩
    · rw [applyAdj, if_pos h]
    · rw [applyAdj, if_neg (by omega), if_pos ⟨h1, h2⟩]
    · rw [applyAdj, if_neg h1, if_neg (by omega), if_pos ⟨h2, h3⟩]

/-- C3 witness. -/
theorem claim_C3_change_policy_witness :
    (spacingMatchAt ["a".data] "b a".data 2 = some 3 ∧
      ∀ j, j < 2 → spacingMatchAt ["a".data] "b a".data j = none) ∧
    applyAdj 5 9 (5, 9) ⟨1, 3, 2⟩ = (7, 11) ∧
    applyAdj 2 9 (2, 9) ⟨1, 3, 2⟩ = (1, 11) ∧
    applyAdj 1 9 (1, 9) ⟨3, 5, 2⟩ = (1, 11) :=
  ⟨claim_C3_change_policy.1 ["a".data] "b a".data 2 3 (by decide),
   (claim_C3_change_policy.2.1 5 9 5 9 ⟨1, 3, 2⟩).1 (by decide),
   (claim_C3_change_policy.2.1 2 9 2 9 ⟨1, 3, 2⟩).2.1 (by decide)
     (by decide),
   (claim_C3_change_policy.2.1 1 9 1 9 ⟨3, 5, 2⟩).2.2 (by decide)
     (by decide) (by decide)⟩

theorem pass1_drop_dis (a : Ann) (h1 : 0 ≤ a.astart)
    (h2 : a.astart < a.astop) (h3 : a.astop ≤ 18) :
    pass1Step "DIS MANIBUS SACRUM".data [((0 : Int), (18 : Int))] a =
      none := by
  obtain ⟨as, ae, lb⟩ := a
  dsimp only at h1 h2 h3 ⊢
  have e : ((List.length "DIS MANIBUS SACRUM".data : Nat) : Int) = 18 :=
    by decide
  rw [pass1Step]
  dsimp only
  rw [if_neg (by rw [e]; omega)]
  have hB : extractText "DIS MANIBUS SACRUM".data as ae ≠ [] :=
    extractText_ne_nil h1 h2 (by rw [e]; omega)
  rw [if_neg hB]
  by_cases hsr :
      shouldRemoveWord (extractText "DIS MANIBUS SACRUM".data as ae) lb
  · rw [if_pos hsr]
  · rw [if_neg hsr, if_pos (by simp [insideSp, spanOf, h1, h3])]

/-- C4 counterexample.  The claim quantifies over every transcription
containing "DIS MANIBUS SACRUM", but the formula regex needs a word
boundary: in "XDIS MANIBUS SACRUM" the phrase occurs (at offset 1) yet
no formula is detected, the three word-level annotations inside the
phrase survive unchanged, and no DEDICATION_TO_THE_GODS annotation is
produced. -/
theorem claim_C4_counterexample :
    containsSub "XDIS MANIBUS SACRUM".data "DIS MANIBUS SACRUM".data =
      true ∧
    fixSingleAnn "XDIS MANIBUS SACRUM".data
      [⟨1, 4, "NOMEN"⟩, ⟨5, 12, "NOMEN"⟩, ⟨13, 19, "NOMEN"⟩] =
      [⟨1, 4, "NOMEN"⟩, ⟨5, 12, "NOMEN"⟩, ⟨13, 19, "NOMEN"⟩] ∧
    ∀ a ∈ fixSingleAnn "XDIS MANIBUS SACRUM".data
      [⟨1, 4, "NOMEN"⟩, ⟨5, 12, "NOMEN"⟩, ⟨13, 19, "NOMEN"⟩],
      a.label ≠ "DEDICATION_TO_THE_GODS" := by decide

/-- C4 (amended).  On the transcription "DIS MANIBUS SACRUM" itself
(the phrase at a word boundary, with no other formula occurrence), any
three annotations whose spans lie inside the phrase span [0,18) are
all dropped and the output is exactly one DEDICATION_TO_THE_GODS
annotation covering the full phrase; overlapping formula matches are
resolved by the (start, −length) sort with greedy non-overlap keeping,
so the full phrase wins over its "dis manibus" sub-match. -/
theorem claim_C4_formula_merge (a1 a2 a3 : Ann)
    (h11 : 0 ≤ a1.astart) (h12 : a1.astart < a1.astop)
    (h13 : a1.astop ≤ 18)
    (h21 : 0 ≤ a2.astart) (h22 : a2.astart < a2.astop)
    (h23 : a2.astop ≤ 18)
    (h31 : 0 ≤ a3.astart) (h32 : a3.astart < a3.astop)
    (h33 : a3.astop ≤ 18) :
    fixSingleAnn "DIS MANIBUS SACRUM".data [a1, a2, a3] =
      [⟨0, 18, "DEDICATION_TO_THE_GODS"⟩] := by
  have hform : findAndMergeFormulas "DIS MANIBUS SACRUM".data =
      [⟨0, 18, "DEDICATION_TO_THE_GODS"⟩] := by decide
  rw [fixSingleAnn, hform]
  dsimp only [List.map_cons, List.map_nil]
  rw [List.filterMap_cons, List.filterMap_cons, List.filterMap_cons,
    pass1_drop_dis a1 h11 h12 h13, pass1_drop_dis a2 h21 h22 h23,
    pass1_drop_dis a3 h31 h32 h33]
  decide

/-- C4 witness. -/
theorem claim_C4_formula_merge_witness :
    fixSingleAnn "DIS MANIBUS SACRUM".data
      [⟨0, 3, "NOMEN"⟩, ⟨4, 11, "NOMEN"⟩, ⟨12, 18, "NOMEN"⟩] =
      [⟨0, 18, "DEDICATION_TO_THE_GODS"⟩] :=
  claim_C4_formula_merge ⟨0, 3, "NOMEN"⟩ ⟨4, 11, "NOMEN"⟩
    ⟨12, 18, "NOMEN"⟩ (by decide) (by decide) (by decide) (by decide)
    (by decide) (by decide) (by decide) (by decide) (by decide)

/-! ## Stable sorting lemmas (for the reconciliation pipeline) -/

theorem mem_insPre {α : Type} {lt : α → α → Bool} {x a : α} :
    ∀ {l : List α}, a ∈ insPre lt x l → a = x ∨ a ∈ l := by
  intro l
  induction l with
  | nil => intro h; simpa [insPre] using h
  | cons y ys ih =>
    intro h
    rw [insPre] at h
    split at h
    · rcases List.mem_cons.mp h with rfl | h
      · exact Or.inr (List.mem_cons_self _ _)
      · rcases ih h with h' | h'
        · exact Or.inl h'
        · exact Or.inr (List.mem_cons_of_mem _ h')
    · rcases List.mem_cons.mp h with rfl | h
      · exact Or.inl rfl
      · exact Or.inr h

theorem insPre_perm {α : Type} (lt : α → α → Bool) (x : α) :
    ∀ l : List α, List.Perm (insPre lt x l) (x :: l) := by
  intro l
  induction l with
  | nil => exact List.Perm.refl _
  | cons y ys ih =>
    rw [insPre]
    split
    · exact ((ih.cons y).trans (List.Perm.swap _ _ _))
    · exact List.Perm.refl _

theorem sortStable_perm {α : Type} (lt : α → α → Bool) :
    ∀ l : List α, List.Perm (sortStable lt l) l := by
  intro l
  induction l with
  | nil => exact List.Perm.refl _
  | cons x xs ih =>
    rw [sortStable]
    exact (insPre_perm lt x _).trans (ih.cons x)

theorem mem_sortStable {α : Type} {lt : α → α → Bool} {l : List α}
    {a : α} : a ∈ sortStable lt l ↔ a ∈ l :=
  (sortStable_perm lt l).mem_iff

theorem insPre_pairwise_le {α : Type} {lt : α → α → Bool}
    {le : α → α → Prop}
    (h1 : ∀ a b, ¬ lt a b = true → le b a)
    (h2 : ∀ a b, lt a b = true → le a b)
    (htr : ∀ a b c, le a b → le b c → le a c) (x : α) :
    ∀ l : List α, l.Pairwise le → (insPre lt x l).Pairwise le := by
  intro l
  induction l with
  | nil => intro _; simp [insPre]
  | cons y ys ih =>
    intro hp
    obtain ⟨hy, hys⟩ := List.pairwise_cons.mp hp
    rw [insPre]
    split
    · next hlt =>
      refine List.pairwise_cons.mpr ⟨?_, ih hys⟩
      intro b hb
      rcases mem_insPre hb with rfl | hb
      · exact h2 _ _ hlt
      · exact hy b hb
    · next hlt =>
      have hxy : le x y := h1 _ _ hlt
      refine List.pairwise_cons.mpr ⟨?_, hp⟩
      intro b hb
      rcases List.mem_cons.mp hb with rfl | hb
      · exact hxy
      · exact htr _ _ _ hxy (hy b hb)

theorem sortStable_pairwise_le {α : Type} {lt : α → α → Bool}
    {le : α → α → Prop}
    (h1 : ∀ a b, ¬ lt a b = true → le b a)
    (h2 : ∀ a b, lt a b = true → le a b)
    (htr : ∀ a b c, le a b → le b c → le a c) :
    ∀ l : List α, (sortStable lt l).Pairwise le := by
  intro l
  induction l with
  | nil => simp [sortStable]
  | cons x xs ih =>
    rw [sortStable]
    exact insPre_pairwise_le h1 h2 htr x _ ih

theorem insPre_pairwise_R {α : Type} {lt : α → α → Bool}
    {R : α → α → Prop} (hltR : ∀ a b, lt a b = true → R a b) (x : α) :
    ∀ l : List α, l.Pairwise R → (∀ z ∈ l, R x z) →
      (insPre lt x l).Pairwise R := by
  intro l
  induction l with
  | nil => intro _ _; simp [insPre]
  | cons y ys ih =>
    intro hp hx
    obtain ⟨hy, hys⟩ := List.pairwise_cons.mp hp
    rw [insPre]
    split
    · next hlt =>
      refine List.pairwise_cons.mpr
        ⟨?_, ih hys (fun z hz => hx z (List.mem_cons_of_mem _ hz))⟩
      intro b hb
      rcases mem_insPre hb with rfl | hb
      · exact hltR _ _ hlt
      · exact hy b hb
    · refine List.pairwise_cons.mpr ⟨?_, hp⟩
      intro b hb
      exact hx b hb

theorem sortStable_pairwise_R {α : Type} {lt : α → α → Bool}
    {R : α → α → Prop} (hltR : ∀ a b, lt a b = true → R a b) :
    ∀ l : List α, l.Pairwise R → (sortStable lt l).Pairwise R := by
  intro l
  induction l with
  | nil => intro _; simp [sortStable]
  | cons x xs ih =>
    intro hp
    obtain ⟨hx, hxs⟩ := List.pairwise_cons.mp hp
    rw [sortStable]
    exact insPre_pairwise_R hltR x _ (ih hxs)
      (fun z hz => hx z (mem_sortStable.mp hz))

theorem sort_min_head (x : Ann) : ∀ (U V : List Ann),
    (∀ y ∈ U ++ V, x.astart < y.astart) →
    sortStable annLt (U ++ x :: V) = x :: sortStable annLt (U ++ V) := by
  intro U
  induction U with
  | nil =>
    intro V h
    simp only [List.nil_append]
    rw [sortStable]
    cases hs : sortStable annLt V with
    | nil => rfl
    | cons z zs =>
      have hz : x.astart < z.astart := by
        refine h z ?_
        have : z ∈ sortStable annLt V := by rw [hs]; simp
        exact mem_sortStable.mp this
      rw [insPre, if_neg (by simp [annLt]; omega)]
  | cons u U' ih =>
    intro V h
    simp only [List.cons_append]
    rw [sortStable, ih V (fun y hy => h y (List.mem_cons_of_mem _ hy))]
    have hu : x.astart < u.astart := h u (List.mem_cons_self _ _)
    rw [insPre, if_pos (by simp [annLt]; omega)]
    rw [sortStable]

theorem sort_filter_id (P : Ann → Bool) : ∀ L : List Ann,
    L.Pairwise (fun a b => a.astart ≤ b.astart) →
    L.Pairwise (fun a b => a.astart = b.astart → P a = false) →
    sortStable annLt
      (L.filter (fun a => !P a) ++ L.filter P) = L := by
  intro L
  induction L with
  | nil => intro _ _; rfl
  | cons x L' ih =>
    intro hs hr
    obtain ⟨hs1, hs2⟩ := List.pairwise_cons.mp hs
    obtain ⟨hr1, hr2⟩ := List.pairwise_cons.mp hr
    by_cases hP : P x = true
    · have hx : ∀ y ∈ L', x.astart < y.astart := by
        intro y hy
        rcases lt_or_eq_of_le (hs1 y hy) with hlt | heq
        · exact hlt
        · exact absurd (hr1 y hy heq) (by simp [hP])
      rw [List.filter_cons, List.filter_cons]
      simp only [hP, Bool.not_true, Bool.false_eq_true, if_false,
        if_true]
      rw [sort_min_head x _ _ ?side, ih hs2 hr2]
      case side =>
        intro y hy
        rcases List.mem_append.mp hy with hy | hy
        · exact hx y (List.mem_of_mem_filter hy)
        · exact hx y (List.mem_of_mem_filter hy)
    · have hPe : P x = false := Bool.eq_false_iff.mpr hP
      rw [List.filter_cons, List.filter_cons]
      simp only [hPe, Bool.not_false, if_true, Bool.false_eq_true,
        if_false]
      rw [List.cons_append, sortStable, ih hs2 hr2]
      cases L' with
      | nil => rfl
      | cons y ys =>
        have : x.astart ≤ y.astart := hs1 y (List.mem_cons_self _ _)
        rw [insPre, if_neg (by simp [annLt]; omega)]

theorem insPre_map {g : Ann → Ann} (hg : ∀ a, (g a).astart = a.astart)
    (x : Ann) : ∀ l : List Ann,
    insPre annLt (g x) (l.map g) = (insPre annLt x l).map g := by
  intro l
  induction l with
  | nil => rfl
  | cons y ys ih =>
    have hc : annLt (g y) (g x) = annLt y x := by simp [annLt, hg]
    rw [List.map_cons, insPre, insPre, hc]
    by_cases h : annLt y x = true
    · rw [if_pos h, if_pos h, List.map_cons, ih]
    · rw [if_neg h, if_neg h, List.map_cons, List.map_cons]

theorem sortStable_map {g : Ann → Ann}
    (hg : ∀ a, (g a).astart = a.astart) : ∀ l : List Ann,
    sortStable annLt (l.map g) = (sortStable annLt l).map g := by
  intro l
  induction l with
  | nil => rfl
  | cons x xs ih =>
    rw [List.map_cons, sortStable, sortStable, ih, insPre_map hg]

theorem map_id_of {α : Type} {g : α → α} : ∀ l : List α,
    (∀ x ∈ l, g x = x) → l.map g = l := by
  intro l
  induction l with
  | nil => intro _; rfl
  | cons x xs ih =>
    intro h
    rw [List.map_cons, h x (List.mem_cons_self _ _),
      ih (fun y hy => h y (List.mem_cons_of_mem _ hy))]

/-! ## Generic list facts for the reconciliation proofs -/

theorem pairwise_of_mem_prop {α : Type} {R : α → α → Prop} :
    ∀ {l : List α}, (∀ a ∈ l, ∀ b, R a b) → l.Pairwise R := by
  intro l
  induction l with
  | nil => intro _; exact List.Pairwise.nil
  | cons x xs ih =>
    intro h
    exact List.Pairwise.cons (fun b _ => h x (List.mem_cons_self _ _) b)
      (ih (fun a ha b => h a (List.mem_cons_of_mem _ ha) b))

theorem pairwise_of_spans {rel : Int × Int → Int × Int → Prop}
    {l₁ l₂ : List Ann} (h : l₁.map spanOf = l₂.map spanOf)
    (hp : l₂.Pairwise (fun a b => rel (spanOf a) (spanOf b))) :
    l₁.Pairwise (fun a b => rel (spanOf a) (spanOf b)) := by
  rw [← List.pairwise_map] at hp ⊢
  rw [h]
  exact hp

theorem litAt_bound {w u : List Char} {j : Nat} (h : litAt w u j = true)
    (hw : w ≠ []) : j + w.length ≤ u.length := by
  rw [litAt] at h
  have hp := List.isPrefixOf_iff_prefix.mp h
  have h1 : w.length ≤ u.length - j := by
    have h2 := hp.length_le
    simpa [List.length_drop] using h2
  have h2 : 0 < w.length := List.length_pos.mpr hw
  omega

theorem litAt_getElem {w u : List Char} {j k : Nat}
    (h : litAt w u j = true) (hk : k < w.length) :
    u[j + k]? = w[k]? := by
  rw [litAt] at h
  obtain ⟨tail, htail⟩ := List.isPrefixOf_iff_prefix.mp h
  have h1 : (u.drop j)[k]? = w[k]? := by
    rw [← htail, List.getElem?_append_left hk]
  rw [← h1, List.getElem?_drop]

theorem wsMunch_ge (u : List Char) (i : Nat) : i ≤ wsMunch u i :=
  Nat.le_add_right _ _

theorem wsMunch_le (u : List Char) (i : Nat) (h : i ≤ u.length) :
    wsMunch u i ≤ u.length := by
  rw [wsMunch]
  have h1 : ((u.drop i).takeWhile isSpaceChar).length ≤ (u.drop i).length :=
    (List.takeWhile_prefix _).length_le
  rw [List.length_drop] at h1
  omega

theorem foldl_append_mem {α β : Type} (g : β → List α) :
    ∀ (l : List β) (acc : List α) (x : α),
    x ∈ l.foldl (fun a r => a ++ g r) acc → x ∈ acc ∨ ∃ r ∈ l, x ∈ g r := by
  intro l
  induction l with
  | nil => intro acc x h; exact Or.inl h
  | cons r l' ih =>
    intro acc x h
    rw [List.foldl_cons] at h
    rcases ih _ x h with h' | ⟨r', hr', hx⟩
    · rcases List.mem_append.mp h' with h'' | h''
      · exact Or.inl h''
      · exact Or.inr ⟨r, List.mem_cons_self _ _, h''⟩
    · exact Or.inr ⟨r', List.mem_cons_of_mem _ hr', hx⟩

theorem greedy_shape : ∀ (l acc : List Ann),
    ∃ sub, List.Sublist sub l ∧
      l.foldl (fun acc f => if acc.any (fun ex => overlapsB f ex) then acc
        else acc ++ [f]) acc = acc ++ sub := by
  intro l
  induction l with
  | nil => intro acc; exact ⟨[], List.nil_sublist _, by simp⟩
  | cons f l' ih =>
    intro acc
    rw [List.foldl_cons]
    by_cases hc : acc.any (fun ex => overlapsB f ex) = true
    · rw [if_pos hc]
      obtain ⟨sub, hs, he⟩ := ih acc
      exact ⟨sub, List.Sublist.cons _ hs, he⟩
    · rw [if_neg hc]
      obtain ⟨sub, hs, he⟩ := ih (acc ++ [f])
      refine ⟨f :: sub, List.Sublist.cons₂ _ hs, ?_⟩
      rw [he, List.append_assoc]
      rfl

theorem greedyKeep_sublist (l : List Ann) :
    List.Sublist (greedyKeep l) l := by
  obtain ⟨sub, hs, he⟩ := greedy_shape l []
  rw [greedyKeep, he, List.nil_append]
  exact hs

theorem greedy_aux : ∀ (l acc : List Ann),
    acc.Pairwise (fun ex f => overlapsB f ex = false) →
    (l.foldl (fun acc f => if acc.any (fun ex => overlapsB f ex) then acc
      else acc ++ [f]) acc).Pairwise
      (fun ex f => overlapsB f ex = false) := by
  intro l
  induction l with
  | nil => intro acc h; exact h
  | cons f l' ih =>
    intro acc h
    rw [List.foldl_cons]
    by_cases hc : acc.any (fun ex => overlapsB f ex) = true
    · rw [if_pos hc]
      exact ih acc h
    · rw [if_neg hc]
      refine ih _ (List.pairwise_append.mpr
        ⟨h, List.pairwise_singleton _ _, ?_⟩)
      intro ex hex g hg
      rw [List.mem_singleton] at hg
      subst hg
      have h2 : ¬ ∃ ex ∈ acc, overlapsB g ex = true := by
        intro ⟨ex', hex', ho⟩
        exact hc (List.any_eq_true.mpr ⟨ex', hex', ho⟩)
      exact Bool.eq_false_iff.mpr (fun ho => h2 ⟨ex, hex, ho⟩)

theorem greedyKeep_pairwise (l : List Ann) :
    (greedyKeep l).Pairwise (fun ex f => overlapsB f ex = false) := by
  rw [greedyKeep]
  exact greedy_aux l [] (List.Pairwise.nil)

/-! ## Inversion of the formula matcher -/

theorem segsGapFrom_inv (opt : Bool) :
    ∀ (segs : List (List Char)) (u : List Char) (i e : Nat),
    (∀ w ∈ segs, w ≠ []) → segsGapFrom opt segs u i = some e →
    i ≤ e ∧ (segs ≠ [] → i < e ∧ e ≤ u.length) ∧
    ∀ w ∈ segs, ∃ j, i ≤ j ∧ j + w.length ≤ e ∧ litAt w u j = true := by
  intro segs
  induction segs with
  | nil =>
    intro u i e _ h
    rw [segsGapFrom] at h
    injection h with h
    subst h
    exact ⟨le_refl _, fun hc => absurd rfl hc, by simp⟩
  | cons s rest ih =>
    intro u i e hne h
    have hsne : s ≠ [] := hne s (List.mem_cons_self _ _)
    have hs0 : 0 < s.length := List.length_pos.mpr hsne
    cases rest with
    | nil =>
      simp only [segsGapFrom] at h
      split at h
      · next hlit =>
        injection h with h
        subst h
        have hb := litAt_bound hlit hsne
        refine ⟨by omega, fun _ => ⟨by omega, by omega⟩, ?_⟩
        intro w hw
        rw [List.mem_singleton] at hw
        subst hw
        exact ⟨i, le_refl _, by omega, hlit⟩
      · cases h
    | cons r rs =>
      rw [segsGapFrom] at h
      by_cases hlit : litAt s u i = true
      · rw [if_pos hlit] at h
        dsimp only at h
        have hb := litAt_bound hlit hsne
        have hwge := wsMunch_ge u (i + s.length)
        have hrec : segsGapFrom opt (r :: rs) u (wsMunch u (i + s.length))
            = some e := by
          cases opt with
          | true => rw [if_pos rfl] at h; exact h
          | false =>
            rw [if_neg Bool.false_ne_true] at h
            split at h
            · exact h
            · cases h
        obtain ⟨h1, h2, h3⟩ := ih u (wsMunch u (i + s.length)) e
          (fun w hw => hne w (List.mem_cons_of_mem _ hw)) hrec
        obtain ⟨hlt, hle⟩ := h2 (List.cons_ne_nil _ _)
        refine ⟨by omega, fun _ => ⟨by omega, hle⟩, ?_⟩
        intro w hw
        rcases List.mem_cons.mp hw with rfl | hw
        · exact ⟨i, le_refl _, by omega, hlit⟩
        · obtain ⟨j, hj1, hj2, hj3⟩ := h3 w hw
          exact ⟨j, by omega, hj2, hj3⟩
      · rw [if_neg hlit] at h
        cases h

theorem formulaMatchAt_inv {r : FormulaRule} {u : List Char} {i e : Nat}
    (h : formulaMatchAt r u i = some e) :
    segsGapFrom r.opt (r.segs.map String.data) u i = some e := by
  rw [formulaMatchAt] at h
  split at h
  · cases hseg : segsGapFrom r.opt (r.segs.map String.data) u i with
    | none => rw [hseg] at h; cases h
    | some e' =>
      rw [hseg] at h
      simp only at h
      split at h
      · injection h with h
        subst h
        rfl
      · cases h
  · cases h

theorem formulaFindFrom_inv {r : FormulaRule} {u : List Char} :
    ∀ (fuel i : Nat) {s e : Nat},
    formulaFindFrom r u i fuel = some (s, e) →
    formulaMatchAt r u s = some e := by
  intro fuel
  induction fuel with
  | zero => intro i s e h; rw [formulaFindFrom] at h; cases h
  | succ n ih =>
    intro i s e h
    rw [formulaFindFrom] at h
    cases hm : formulaMatchAt r u i with
    | some e' =>
      rw [hm] at h
      simp only at h
      injection h with h
      obtain ⟨rfl, rfl⟩ := Prod.mk.inj h
      exact hm
    | none =>
      rw [hm] at h
      simp only at h
      exact ih _ h

theorem formulaIter_inv {r : FormulaRule} {u : List Char} :
    ∀ (fuel p : Nat) {s e : Nat},
    (s, e) ∈ formulaIter r u p fuel →
    formulaMatchAt r u s = some e := by
  intro fuel
  induction fuel with
  | zero => intro p s e h; rw [formulaIter] at h; cases h
  | succ n ih =>
    intro p s e h
    rw [formulaIter] at h
    cases hf : formulaFindFrom r u p (u.length + 1 - p) with
    | none => rw [hf] at h; cases h
    | some se =>
      obtain ⟨s', e'⟩ := se
      rw [hf] at h
      simp only at h
      rcases List.mem_cons.mp h with heq | h
      · obtain ⟨rfl, rfl⟩ := Prod.mk.inj heq
        exact formulaFindFrom_inv _ _ hf
      · exact ih _ h

theorem fmf_mem {t : List Char} {f : Ann}
    (hf : f ∈ findAndMergeFormulas t) :
    ∃ r ∈ formulaRules, ∃ s e : Nat,
      formulaMatchAt r (lowerStr t) s = some e ∧
      f = ⟨(s : Int), (e : Int), r.label⟩ := by
  simp only [findAndMergeFormulas] at hf
  have hraw := mem_sortStable.mp ((greedyKeep_sublist _).subset hf)
  rcases foldl_append_mem _ _ _ _ hraw with h | ⟨r, hr, hx⟩
  · cases h
  · obtain ⟨⟨s, e⟩, hse, rfl⟩ := List.mem_map.mp hx
    exact ⟨r, hr, s, e, formulaIter_inv _ _ hse, rfl⟩

/-- Structural facts about the formula table, checked by computation. -/
theorem formulaRules_wf : ∀ r ∈ formulaRules,
    r.segs.map String.data ≠ [] ∧
    (∀ w ∈ r.segs.map String.data, w ≠ []) ∧
    (r.label = "DEDICATION_TO_THE_GODS" ∨ r.label = "FUNERARY_FORMULA" ∨
      r.label = "BENE_MERENTI") := by decide

theorem fmf_valid {t : List Char} {f : Ann}
    (hf : f ∈ findAndMergeFormulas t) :
    0 ≤ f.astart ∧ f.astart < f.astop ∧ f.astop ≤ (t.length : Int) := by
  obtain ⟨r, hr, s, e, hm, rfl⟩ := fmf_mem hf
  obtain ⟨hrne, hrwne, _⟩ := formulaRules_wf r hr
  obtain ⟨_, h2, _⟩ := segsGapFrom_inv r.opt (r.segs.map String.data)
    (lowerStr t) s e hrwne (formulaMatchAt_inv hm)
  obtain ⟨hlt, hle⟩ := h2 hrne
  rw [lowerStr, List.length_map] at hle
  show 0 ≤ ((s : Int)) ∧ ((s : Int)) < ((e : Int)) ∧
    ((e : Int)) ≤ ((t.length : Int))
  exact ⟨by omega, by omega, by omega⟩

theorem fmf_label {t : List Char} {f : Ann}
    (hf : f ∈ findAndMergeFormulas t) :
    f.label = "DEDICATION_TO_THE_GODS" ∨ f.label = "FUNERARY_FORMULA" ∨
      f.label = "BENE_MERENTI" := by
  obtain ⟨r, hr, s, e, hm, rfl⟩ := fmf_mem hf
  exact (formulaRules_wf r hr).2.2

theorem sortStable_annLt_le (l : List Ann) :
    (sortStable annLt l).Pairwise (fun a b => a.astart ≤ b.astart) := by
  refine sortStable_pairwise_le ?_ ?_ ?_ l
  · intro a b h; simp [annLt] at h; omega
  · intro a b h; simp [annLt] at h; omega
  · intro a b c h1 h2; exact le_trans h1 h2

theorem sortStable_formulaLt_le (l : List Ann) :
    (sortStable formulaLt l).Pairwise (fun a b => a.astart ≤ b.astart) := by
  refine sortStable_pairwise_le ?_ ?_ ?_ l
  · intro a b h; simp [formulaLt] at h; omega
  · intro a b h; simp [formulaLt] at h; omega
  · intro a b c h1 h2; exact le_trans h1 h2

theorem fmf_sorted (t : List Char) :
    (findAndMergeFormulas t).Pairwise (fun a b => a.astart ≤ b.astart) := by
  simp only [findAndMergeFormulas]
  exact List.Pairwise.sublist (greedyKeep_sublist _)
    (sortStable_formulaLt_le _)

theorem fmf_nonoverlap (t : List Char) :
    (findAndMergeFormulas t).Pairwise
      (fun ex f => overlapsB f ex = false) := by
  simp only [findAndMergeFormulas]
  exact greedyKeep_pairwise _

theorem fmf_starts (t : List Char) :
    (findAndMergeFormulas t).Pairwise
      (fun a b => a.astart ≠ b.astart) := by
  refine (fmf_nonoverlap t).imp_of_mem ?_
  intro a b ha hb hQ heq
  have hva := fmf_valid ha
  have hvb := fmf_valid hb
  rw [overlapsB] at hQ
  simp only [Bool.not_eq_false', Bool.or_eq_true, decide_eq_true_eq] at hQ
  omega

/-! ## Formula spans are never pure Roman numerals -/

theorem roman_false_of_mem {l : List Char} {c : Char} (hc : c ∈ l)
    (h1 : ¬(c = 'I' ∨ c = 'V' ∨ c = 'X')) (h2 : c ≠ '\n') :
    isRomanIVX l = false := by
  have hcore : c ∈ (if l.getLast? = some '\n' then l.dropLast else l) := by
    split
    · next hlast =>
      have hnil : l ≠ [] := by rintro rfl; cases hlast
      rw [← List.dropLast_append_getLast hnil] at hc
      rcases List.mem_append.mp hc with h | h
      · exact h
      · rw [List.mem_singleton] at h
        have hg := List.getLast?_eq_getLast l hnil
        rw [hlast] at hg
        injection hg with hg
        exact absurd (h.trans hg.symm) h2
    · exact hc
  have hall : (if l.getLast? = some '\n' then l.dropLast else l).all
      (fun c => c = 'I' || c = 'V' || c = 'X') = false := by
    apply Bool.eq_false_iff.mpr
    intro hall
    have h3 := List.all_eq_true.mp hall c hcore
    simp only [Bool.or_eq_true, decide_eq_true_eq] at h3
    exact h1 (by tauto)
  simp only [isRomanIVX, hall, Bool.and_false]

theorem notRoman_slice {t : List Char} {s e jk : Nat} {c₀ : Char}
    (hlow : (lowerStr t)[jk]? = some c₀)
    (hj1 : s ≤ jk) (hj2 : jk < e)
    (hI : Char.toLower 'I' ≠ c₀) (hV : Char.toLower 'V' ≠ c₀)
    (hX : Char.toLower 'X' ≠ c₀) (hN : Char.toLower '\n' ≠ c₀) :
    isRomanIVX (sliceN t s e) = false := by
  rw [lowerStr, List.getElem?_map] at hlow
  cases hc : t[jk]? with
  | none => rw [hc] at hlow; cases hlow
  | some c =>
    rw [hc] at hlow
    have hcl : c.toLower = c₀ := by simpa using hlow
    have hmem : c ∈ sliceN t s e := by
      have h1 : (sliceN t s e)[jk - s]? = some c := by
        rw [sliceN, List.getElem?_take_of_lt (by omega), List.getElem?_drop,
          show s + (jk - s) = jk by omega]
        exact hc
      exact List.getElem?_mem h1
    refine roman_false_of_mem hmem ?_ ?_
    · rintro (rfl | rfl | rfl)
      exacts [hI hcl, hV hcl, hX hcl]
    · rintro rfl
      exact hN hcl

theorem notRoman_of_seg {t : List Char} {s e : Nat} (w : List Char)
    (k : Nat) (c₀ : Char)
    (hseg : ∃ j, s ≤ j ∧ j + w.length ≤ e ∧ litAt w (lowerStr t) j = true)
    (hk : k < w.length) (hwk : w[k]? = some c₀)
    (hI : Char.toLower 'I' ≠ c₀) (hV : Char.toLower 'V' ≠ c₀)
    (hX : Char.toLower 'X' ≠ c₀) (hN : Char.toLower '\n' ≠ c₀) :
    isRomanIVX (sliceN t s e) = false := by
  obtain ⟨j, hj1, hj2, hlit⟩ := hseg
  have hchar : (lowerStr t)[j + k]? = some c₀ := by
    rw [litAt_getElem hlit hk, hwk]
  exact notRoman_slice hchar (by omega) (by omega) hI hV hX hN

theorem fmf_notRoman {t : List Char} {f : Ann}
    (hf : f ∈ findAndMergeFormulas t) :
    isRomanIVX (extractText t f.astart f.astop) = false := by
  obtain ⟨r, hr, s, e, hm, rfl⟩ := fmf_mem hf
  obtain ⟨hrne, hrwne, _⟩ := formulaRules_wf r hr
  obtain ⟨_, h2, hsegs⟩ := segsGapFrom_inv r.opt (r.segs.map String.data)
    (lowerStr t) s e hrwne (formulaMatchAt_inv hm)
  obtain ⟨hlt, hle⟩ := h2 hrne
  rw [lowerStr, List.length_map] at hle
  have hext : extractText t ((s : Int)) ((e : Int)) = sliceN t s e := by
    rw [extractText, if_pos (⟨by omega, by omega, by omega⟩ :
      0 ≤ ((s : Int)) ∧ ((s : Int)) < ((e : Int)) ∧
        ((e : Int)) ≤ ((t.length : Int)))]
    simp
  show isRomanIVX (extractText t ((s : Int)) ((e : Int))) = false
  rw [hext]
  fin_cases hr
  · exact notRoman_of_seg "dis".data 0 'd' (hsegs _ (by decide))
      (by decide) (by decide) (by decide) (by decide) (by decide) (by decide)
  · exact notRoman_of_seg "dis".data 0 'd' (hsegs _ (by decide))
      (by decide) (by decide) (by decide) (by decide) (by decide) (by decide)
  · exact notRoman_of_seg "d".data 0 'd' (hsegs _ (by decide))
      (by decide) (by decide) (by decide) (by decide) (by decide) (by decide)
  · exact notRoman_of_seg "d".data 0 'd' (hsegs _ (by decide))
      (by decide) (by decide) (by decide) (by decide) (by decide) (by decide)
  · exact notRoman_of_seg "hic".data 0 'h' (hsegs _ (by decide))
      (by decide) (by decide) (by decide) (by decide) (by decide) (by decide)
  · exact notRoman_of_seg "hic".data 0 'h' (hsegs _ (by decide))
      (by decide) (by decide) (by decide) (by decide) (by decide) (by decide)
  · exact notRoman_of_seg "h".data 0 'h' (hsegs _ (by decide))
      (by decide) (by decide) (by decide) (by decide) (by decide) (by decide)
  · exact notRoman_of_seg "sit".data 0 's' (hsegs _ (by decide))
      (by decide) (by decide) (by decide) (by decide) (by decide) (by decide)
  · exact notRoman_of_seg "s".data 0 's' (hsegs _ (by decide))
      (by decide) (by decide) (by decide) (by decide) (by decide) (by decide)
  · exact notRoman_of_seg "bene".data 0 'b' (hsegs _ (by decide))
      (by decide) (by decide) (by decide) (by decide) (by decide) (by decide)
  · exact notRoman_of_seg "bene".data 0 'b' (hsegs _ (by decide))
      (by decide) (by decide) (by decide) (by decide) (by decide) (by decide)
  · exact notRoman_of_seg "b".data 0 'b' (hsegs _ (by decide))
      (by decide) (by decide) (by decide) (by decide) (by decide) (by decide)
  · exact notRoman_of_seg "iovi".data 1 'o' (hsegs _ (by decide))
      (by decide) (by decide) (by decide) (by decide) (by decide) (by decide)
  · exact notRoman_of_seg "o".data 0 'o' (hsegs _ (by decide))
      (by decide) (by decide) (by decide) (by decide) (by decide) (by decide)

/-! ## Pass-1 and pass-3 structure lemmas -/

theorem srw_notRemoval {w : List Char} {lab : String}
    (h : lab ∉ removalLabels) : shouldRemoveWord w lab = false := by
  rw [shouldRemoveWord, if_neg h]

theorem srw_relabel {w : List Char} {lab : String}
    (h : shouldRemoveWord w lab = false) :
    shouldRemoveWord w (relabelWord (normTxt w) lab) = false := by
  rw [relabelWord]
  split
  · exact srw_notRemoval (by decide)
  · split
    · next hrel =>
      rw [shouldRemoveWord, if_pos (by decide)]
      apply decide_eq_false
      intro hmem
      exact (by decide : ∀ v ∈ relationshipWords,
        v ∉ adjectivesSet ++ particlesSet) _ hrel hmem
    · split
      · exact srw_notRemoval (by decide)
      · exact h

theorem relabelWord_idem (w : List Char) (lab : String) :
    relabelWord w (relabelWord w lab) = relabelWord w lab := by
  by_cases h1 : w ∈ funeraryWords
  · simp [relabelWord, h1]
  · by_cases h2 : w ∈ relationshipWords
    · simp [relabelWord, h1, h2]
    · by_cases h3 : w ∈ agePrefixWords
      · simp [relabelWord, h1, h2, h3]
      · simp [relabelWord, h1, h2, h3]

theorem pass1Step_inv {t : List Char} {fs : List (Int × Int)} {a y : Ann}
    (h : pass1Step t fs a = some y) :
    y = relabAnn t a ∧
    (0 ≤ a.astart ∧ a.astart < a.astop ∧ a.astop ≤ (t.length : Int)) ∧
    shouldRemoveWord (extractText t a.astart a.astop) a.label = false ∧
    insideSp fs (spanOf a) = false := by
  simp only [pass1Step] at h
  split at h
  · cases h
  rename_i hval
  split at h
  · cases h
  split at h
  · cases h
  rename_i hsrw
  split at h
  · cases h
  rename_i hins
  split at h
  · cases h
  injection h with h
  exact ⟨h.symm, by omega, Bool.eq_false_iff.mpr hsrw,
    Bool.eq_false_iff.mpr hins⟩

theorem pass1Step_canon {t : List Char} {fs : List (Int × Int)} {z : Ann}
    (h1 : 0 ≤ z.astart ∧ z.astart < z.astop ∧ z.astop ≤ (t.length : Int))
    (h2 : shouldRemoveWord (extractText t z.astart z.astop) z.label = false)
    (h3 : measurementCtx t z.astart z.astop = false) :
    pass1Step t fs z = if insideSp fs (spanOf z) then none
      else some (relabAnn t z) := by
  simp only [pass1Step]
  rw [if_neg (by omega)]
  rw [if_neg (extractText_ne_nil h1.1 h1.2.1 h1.2.2)]
  rw [if_neg (by simp [h2])]
  by_cases hP : insideSp fs (spanOf z) = true
  · rw [if_pos hP, if_pos hP]
  · rw [if_neg hP, if_neg hP,
      if_neg (by rintro ⟨_, hx⟩; rw [h3] at hx; cases hx)]

theorem filterMap_canon {t : List Char} {fs : List (Int × Int)} :
    ∀ {l : List Ann},
    (∀ z ∈ l,
      (0 ≤ z.astart ∧ z.astart < z.astop ∧ z.astop ≤ (t.length : Int)) ∧
      shouldRemoveWord (extractText t z.astart z.astop) z.label = false ∧
      measurementCtx t z.astart z.astop = false) →
    l.filterMap (pass1Step t fs) =
      (l.filter (fun z => !insideSp fs (spanOf z))).map (relabAnn t) := by
  intro l
  induction l with
  | nil => intro _; rfl
  | cons z l' ih =>
    intro h
    obtain ⟨h1, h2, h3⟩ := h z (List.mem_cons_self _ _)
    have hrest := ih (fun y hy => h y (List.mem_cons_of_mem _ hy))
    rw [List.filter_cons]
    by_cases hP : insideSp fs (spanOf z) = true
    · have hnone : pass1Step t fs z = none := by
        rw [pass1Step_canon h1 h2 h3, if_pos hP]
      rw [List.filterMap_cons_none hnone]
      simp only [hP, Bool.not_true, Bool.false_eq_true, if_false]
      exact hrest
    · have hPf : insideSp fs (spanOf z) = false := Bool.eq_false_iff.mpr hP
      have hsome : pass1Step t fs z = some (relabAnn t z) := by
        rw [pass1Step_canon h1 h2 h3, if_neg hP]
      rw [List.filterMap_cons_some hsome]
      simp only [hPf, Bool.not_false, if_true]
      rw [List.map_cons, hrest]

theorem filterMap_inside_false {t : List Char} {fs : List (Int × Int)}
    {anns : List Ann} {z : Ann}
    (hz : z ∈ anns.filterMap (pass1Step t fs)) :
    insideSp fs (spanOf z) = false := by
  obtain ⟨a, _, hpa⟩ := List.mem_filterMap.mp hz
  obtain ⟨rfl, _, _, hins⟩ := pass1Step_inv hpa
  exact hins

theorem inside_self (F : List Ann) (f : Ann) (hf : f ∈ F) :
    insideSp (F.map (fun g => (g.astart, g.astop))) (spanOf f) = true := by
  rw [insideSp, List.any_eq_true]
  refine ⟨(f.astart, f.astop), List.mem_map.mpr ⟨f, hf, rfl⟩, ?_⟩
  simp [spanOf]

theorem hFun_astart (t : List Char) (fs : List (Int × Int)) (x : Ann) :
    (hFun t fs x).astart = x.astart := by
  rw [hFun]; split <;> rfl

theorem hFun_astop (t : List Char) (fs : List (Int × Int)) (x : Ann) :
    (hFun t fs x).astop = x.astop := by
  rw [hFun]; split <;> rfl

theorem hFun_span (t : List Char) (fs : List (Int × Int)) (x : Ann) :
    spanOf (hFun t fs x) = spanOf x := by
  rw [hFun]; split <;> rfl

theorem p3_spans (t : List Char) : ∀ (m : List Ann) (prev : Option String),
    (pass3Go t prev m).map spanOf = m.map spanOf := by
  intro m
  induction m with
  | nil => intro prev; rfl
  | cons a rest ih =>
    intro prev
    simp only [pass3Go, List.map_cons]
    rw [ih]
    rfl

theorem p3_mem {t : List Char} : ∀ {m : List Ann} {prev : Option String}
    {x : Ann}, x ∈ pass3Go t prev m →
    ∃ y ∈ m, x.astart = y.astart ∧ x.astop = y.astop ∧
      (x.label = y.label ∨ x.label = "AGE_YEARS") := by
  intro m
  induction m with
  | nil =>
    intro prev x h
    rw [pass3Go] at h
    cases h
  | cons a rest ih =>
    intro prev x h
    simp only [pass3Go] at h
    rcases List.mem_cons.mp h with rfl | h
    · refine ⟨a, List.mem_cons_self _ _, rfl, rfl, ?_⟩
      dsimp only
      split
      · exact Or.inr rfl
      · exact Or.inl rfl
    · obtain ⟨y, hy, h1, h2, h3⟩ := ih h
      exact ⟨y, List.mem_cons_of_mem _ hy, h1, h2, h3⟩

theorem p3_filter (t : List Char) (p : Ann → Bool)
    (hp : ∀ (s e : Int) (l1 l2 : String), p ⟨s, e, l1⟩ = p ⟨s, e, l2⟩) :
    ∀ (m : List Ann) (prev : Option String),
    (∀ a ∈ m, p a = true →
      isRomanIVX (extractText t a.astart a.astop) = false) →
    (pass3Go t prev m).filter p = m.filter p := by
  intro m
  induction m with
  | nil => intro prev _; rfl
  | cons a rest ih =>
    intro prev hnr
    simp only [pass3Go]
    rw [List.filter_cons, List.filter_cons]
    have hrest := fun pr => ih pr
      (fun z hz hPz => hnr z (List.mem_cons_of_mem _ hz) hPz)
    by_cases hP : p a = true
    · have hnroman := hnr a (List.mem_cons_self _ _) hP
      have hlab : (if isRomanIVX (extractText t a.astart a.astop) = true ∧
          prev = some "AGE_PREFIX" then "AGE_YEARS" else a.label)
          = a.label := by
        rw [if_neg]
        rintro ⟨hx, _⟩
        rw [hnroman] at hx
        cases hx
      rw [hlab]
      have heta : (⟨a.astart, a.astop, a.label⟩ : Ann) = a := rfl
      rw [heta, if_pos hP, if_pos hP, hrest (some a.label)]
    · have hpa : p ⟨a.astart, a.astop,
          if isRomanIVX (extractText t a.astart a.astop) = true ∧
            prev = some "AGE_PREFIX" then "AGE_YEARS" else a.label⟩
          = p a := hp a.astart a.astop _ a.label
      rw [if_neg (by rw [hpa]; exact hP), if_neg hP]
      exact hrest _

theorem p3_idem (t : List Char) (fs : List (Int × Int)) :
    ∀ (m : List Ann) (prev : Option String),
    (∀ a ∈ m, insideSp fs (spanOf a) = false →
      relabelWord (normTxt (extractText t a.astart a.astop)) a.label
        = a.label) →
    pass3Go t prev ((pass3Go t prev m).map (hFun t fs))
      = pass3Go t prev m := by
  intro m
  induction m with
  | nil => intro prev _; rfl
  | cons a rest ih =>
    intro prev hside
    simp only [pass3Go, List.map_cons, hFun_astart, hFun_astop]
    by_cases hc : isRomanIVX (extractText t a.astart a.astop) = true ∧
        prev = some "AGE_PREFIX"
    · simp only [if_pos hc]
      rw [ih (some "AGE_YEARS")
        (fun z hz hPz => hside z (List.mem_cons_of_mem _ hz) hPz)]
    · simp only [if_neg hc]
      have heta : (⟨a.astart, a.astop, a.label⟩ : Ann) = a := rfl
      rw [heta]
      by_cases hP : insideSp fs (spanOf a) = true
      · have hfa : hFun t fs a = a := by rw [hFun, if_pos hP]
        rw [hfa, ih (some a.label)
          (fun z hz hPz => hside z (List.mem_cons_of_mem _ hz) hPz)]
      · have hPf : insideSp fs (spanOf a) = false := Bool.eq_false_iff.mpr hP
        have hfa : hFun t fs a = relabAnn t a := by rw [hFun, if_neg hP]
        have hlab : (hFun t fs a).label = a.label := by
          rw [hfa]
          show relabelWord (normTxt (extractText t a.astart a.astop)) a.label
            = a.label
          exact hside a (List.mem_cons_self _ _) hPf
        rw [hlab, ih (some a.label)
          (fun z hz hPz => hside z (List.mem_cons_of_mem _ hz) hPz)]

/-! ## The measurement-context proviso -/

theorem lowerStr_sliceN (t : List Char) (a b : Nat) :
    lowerStr (sliceN t a b) = sliceN (lowerStr t) a b := by
  rw [lowerStr, lowerStr, sliceN, sliceN, List.map_take, List.map_drop]

theorem containsSub_of_slice {h w : List Char} {a b : Nat}
    (hc : containsSub (sliceN h a b) w = true) : containsSub h w = true := by
  rw [containsSub, List.any_eq_true] at hc ⊢
  obtain ⟨i, _, hpre⟩ := hc
  have hp : w <+: (sliceN h a b).drop i := List.isPrefixOf_iff_prefix.mp hpre
  have hp2 : w <+: h.drop (a + i) := by
    rw [sliceN, List.drop_take, List.drop_drop] at hp
    exact hp.trans (List.take_prefix _ _)
  refine ⟨min (a + i) h.length, ?_, ?_⟩
  · rw [List.mem_range]; omega
  · rw [List.isPrefixOf_iff_prefix]
    rcases le_or_lt (a + i) h.length with hle | hgt
    · rw [min_eq_left hle]; exact hp2
    · rw [min_eq_right (le_of_lt hgt)]
      have hnil : h.drop (a + i) = [] :=
        List.drop_eq_nil_of_le (le_of_lt hgt)
      rw [hnil] at hp2
      rw [List.prefix_nil.mp hp2]
      exact List.nil_prefix

theorem measurementCtx_false {t : List Char}
    (hm : (containsSub (lowerStr t) "pedes".data = false ∨
           containsSub (lowerStr t) "fronte".data = false) ∧
          (containsSub (lowerStr t) "locus".data = false ∨
           containsSub (lowerStr t) "pedum".data = false))
    (s e : Int) : measurementCtx t s e = false := by
  have hmono : ∀ w : List Char, containsSub (lowerStr t) w = false →
      containsSub (ctxOf t s e) w = false := by
    intro w hw
    cases hcc : containsSub (ctxOf t s e) w with
    | false => rfl
    | true =>
      exfalso
      rw [ctxOf, lowerStr_sliceN] at hcc
      rw [containsSub_of_slice hcc] at hw
      cases hw
  obtain ⟨h1, h2⟩ := hm
  have e1 : (containsSub (ctxOf t s e) "pedes".data &&
      containsSub (ctxOf t s e) "fronte".data) = false := by
    rcases h1 with h | h
    · rw [hmono _ h, Bool.false_and]
    · rw [hmono _ h, Bool.and_false]
  have e2 : (containsSub (ctxOf t s e) "locus".data &&
      containsSub (ctxOf t s e) "pedum".data) = false := by
    rcases h2 with h | h
    · rw [hmono _ h, Bool.false_and]
    · rw [hmono _ h, Bool.and_false]
  simp only [measurementCtx, e1, e2, Bool.or_false]

theorem filter_map_hFun_neg (t : List Char) (fs : List (Int × Int)) :
    ∀ l : List Ann,
    (l.map (hFun t fs)).filter (fun z => !insideSp fs (spanOf z)) =
      (l.filter (fun z => !insideSp fs (spanOf z))).map (relabAnn t) := by
  intro l
  induction l with
  | nil => rfl
  | cons z l' ih =>
    rw [List.map_cons, List.filter_cons, List.filter_cons]
    by_cases hP : insideSp fs (spanOf z) = true
    · have hsp : insideSp fs (spanOf (hFun t fs z)) = true := by
        rw [hFun_span]; exact hP
      simp only [hsp, hP, Bool.not_true, Bool.false_eq_true, if_false]
      exact ih
    · have hPf : insideSp fs (spanOf z) = false := Bool.eq_false_iff.mpr hP
      have hsp : insideSp fs (spanOf (hFun t fs z)) = false := by
        rw [hFun_span]; exact hPf
      have hz : hFun t fs z = relabAnn t z := by rw [hFun, if_neg hP]
      simp only [hsp, hPf, Bool.not_false, if_true]
      rw [hz, List.map_cons, ih]

theorem filter_map_hFun_pos (t : List Char) (fs : List (Int × Int)) :
    ∀ l : List Ann,
    (l.map (hFun t fs)).filter (fun z => insideSp fs (spanOf z)) =
      l.filter (fun z => insideSp fs (spanOf z)) := by
  intro l
  induction l with
  | nil => rfl
  | cons z l' ih =>
    rw [List.map_cons, List.filter_cons, List.filter_cons]
    by_cases hP : insideSp fs (spanOf z) = true
    · have hsp : insideSp fs (spanOf (hFun t fs z)) = true := by
        rw [hFun_span]; exact hP
      have hz : hFun t fs z = z := by rw [hFun, if_pos hP]
      simp only [hsp, hP, if_true]
      rw [hz, ih]
    · have hPf : insideSp fs (spanOf z) = false := Bool.eq_false_iff.mpr hP
      have hsp : insideSp fs (spanOf (hFun t fs z)) = false := by
        rw [hFun_span]; exact hPf
      simp only [hsp, hPf, Bool.false_eq_true, if_false]
      exact ih

/-- The heart of the idempotence argument: running the pipeline on a
canonical output (one reconciliation pass over some input) reproduces
it, as long as the measurement-context filter can never fire. -/
theorem c2_aux (t : List Char) (F : List Ann) (fsp : List (Int × Int))
    (hfsp : fsp = F.map (fun g => (g.astart, g.astop)))
    (hFval : ∀ f ∈ F,
      0 ≤ f.astart ∧ f.astart < f.astop ∧ f.astop ≤ (t.length : Int))
    (hFlab : ∀ f ∈ F,
      shouldRemoveWord (extractText t f.astart f.astop) f.label = false)
    (hFnr : ∀ f ∈ F, isRomanIVX (extractText t f.astart f.astop) = false)
    (hFne : F.Pairwise (fun a b => a.astart ≠ b.astart))
    (hFle : F.Pairwise (fun a b => a.astart ≤ b.astart))
    (hmctx : ∀ s e : Int, measurementCtx t s e = false)
    (A : List Ann) (x : Ann) (xs : List Ann)
    (hAins : ∀ z ∈ A, insideSp fsp (spanOf z) = false)
    (hAgood : ∀ z ∈ A,
      (0 ≤ z.astart ∧ z.astart < z.astop ∧ z.astop ≤ (t.length : Int)) ∧
      shouldRemoveWord (extractText t z.astart z.astop) z.label = false ∧
      relabelWord (normTxt (extractText t z.astart z.astop)) z.label
        = z.label)
    (hLM : x :: xs = pass3Go t none (sortStable annLt (A ++ F))) :
    pass3Go t none (sortStable annLt
      ((x :: xs).filterMap (pass1Step t fsp) ++ F)) = x :: xs := by
  have hFins : ∀ f ∈ F, insideSp fsp (spanOf f) = true := by
    intro f hf
    rw [hfsp]
    exact inside_self F f hf
  have hMle := sortStable_annLt_le (A ++ F)
  have hMR : (sortStable annLt (A ++ F)).Pairwise
      (fun a b => a.astart = b.astart →
        insideSp fsp (spanOf a) = false) := by
    refine sortStable_pairwise_R ?_ _ ?_
    · intro a b hlt heq
      exfalso
      simp [annLt] at hlt
      omega
    · refine List.pairwise_append.mpr ⟨?_, ?_, ?_⟩
      · exact pairwise_of_mem_prop (fun a ha b => fun _ => hAins a ha)
      · exact hFne.imp (fun hne heq => absurd heq hne)
      · exact fun a ha b _ => fun _ => hAins a ha
  have hspans : (x :: xs).map spanOf =
      (sortStable annLt (A ++ F)).map spanOf := by
    rw [hLM, p3_spans]
  have hLgood : ∀ z ∈ x :: xs,
      (0 ≤ z.astart ∧ z.astart < z.astop ∧ z.astop ≤ (t.length : Int)) ∧
      shouldRemoveWord (extractText t z.astart z.astop) z.label = false := by
    intro z hz
    rw [hLM] at hz
    obtain ⟨y, hy, h1, h2, h3⟩ := p3_mem hz
    rw [mem_sortStable] at hy
    have hyv : 0 ≤ y.astart ∧ y.astart < y.astop ∧
        y.astop ≤ (t.length : Int) := by
      rcases List.mem_append.mp hy with h | h
      · exact (hAgood y h).1
      · exact hFval y h
    have hys : shouldRemoveWord (extractText t y.astart y.astop) y.label
        = false := by
      rcases List.mem_append.mp hy with h | h
      · exact (hAgood y h).2.1
      · exact hFlab y h
    constructor
    · rw [h1, h2]; exact hyv
    · rcases h3 with h3 | h3
      · rw [h1, h2, h3]; exact hys
      · rw [h3]
        exact srw_notRemoval (by decide)
  have hK1 : (x :: xs).filterMap (pass1Step t fsp) =
      ((x :: xs).filter (fun z => !insideSp fsp (spanOf z))).map
        (relabAnn t) :=
    filterMap_canon
      (fun z hz => ⟨(hLgood z hz).1, (hLgood z hz).2, hmctx _ _⟩)
  have hnrM : ∀ a ∈ sortStable annLt (A ++ F),
      insideSp fsp (spanOf a) = true →
      isRomanIVX (extractText t a.astart a.astop) = false := by
    intro a ha hP
    rw [mem_sortStable] at ha
    rcases List.mem_append.mp ha with h | h
    · rw [hAins a h] at hP; cases hP
    · exact hFnr a h
  have hMfilt : (sortStable annLt (A ++ F)).filter
      (fun z => insideSp fsp (spanOf z)) = F := by
    have happ : (A ++ F).filter (fun z => insideSp fsp (spanOf z)) = F := by
      rw [List.filter_append,
        List.filter_eq_nil_iff.mpr (fun a ha => by simp [hAins a ha]),
        List.filter_eq_self.mpr (fun f hf => hFins f hf),
        List.nil_append]
    have hperm := (sortStable_perm annLt (A ++ F)).filter
      (fun z => insideSp fsp (spanOf z))
    rw [happ] at hperm
    haveI : IsAntisymm Ann (fun a b => a.astart < b.astart) :=
      ⟨fun a b h1 h2 => absurd h2 (by omega)⟩
    have hsub : List.Sublist ((sortStable annLt (A ++ F)).filter
        (fun z => insideSp fsp (spanOf z))) (sortStable annLt (A ++ F)) :=
      List.filter_sublist _
    have hs1 : ((sortStable annLt (A ++ F)).filter
        (fun z => insideSp fsp (spanOf z))).Pairwise
        (fun a b => a.astart < b.astart) := by
      have hle' := List.Pairwise.sublist hsub hMle
      have hR' := List.Pairwise.sublist hsub hMR
      refine (hle'.and hR').imp_of_mem ?_
      intro a b ha hb hab
      obtain ⟨hle'', hR''⟩ := hab
      have hPa : insideSp fsp (spanOf a) = true := by
        have h4 := (List.mem_filter.mp ha).2
        simpa using h4
      rcases lt_or_eq_of_le hle'' with h | h
      · exact h
      · rw [hR'' h] at hPa; cases hPa
    have hs2 : F.Pairwise (fun a b => a.astart < b.astart) :=
      (hFle.and hFne).imp (fun hab => lt_of_le_of_ne hab.1 hab.2)
    exact List.eq_of_perm_of_sorted hperm hs1 hs2
  have hLfilt : (x :: xs).filter (fun z => insideSp fsp (spanOf z)) = F := by
    have hp3f := p3_filter t (fun z => insideSp fsp (spanOf z))
      (fun s e l1 l2 => rfl) (sortStable annLt (A ++ F)) none hnrM
    rw [hLM, hp3f, hMfilt]
  have hGneg := filter_map_hFun_neg t fsp (x :: xs)
  have hGpos := filter_map_hFun_pos t fsp (x :: xs)
  have hGspans : ((x :: xs).map (hFun t fsp)).map spanOf =
      (sortStable annLt (A ++ F)).map spanOf := by
    rw [List.map_map]
    have hcomp : List.map (spanOf ∘ hFun t fsp) (x :: xs) =
        List.map spanOf (x :: xs) :=
      List.map_congr_left (fun a _ => hFun_span t fsp a)
    rw [hcomp]
    exact hspans
  have hGle : ((x :: xs).map (hFun t fsp)).Pairwise
      (fun a b => a.astart ≤ b.astart) :=
    @pairwise_of_spans (fun p q => p.1 ≤ q.1) _ _ hGspans hMle
  have hGR : ((x :: xs).map (hFun t fsp)).Pairwise
      (fun a b => a.astart = b.astart →
        insideSp fsp (spanOf a) = false) :=
    @pairwise_of_spans (fun p q => p.1 = q.1 → insideSp fsp p = false)
      _ _ hGspans hMR
  have hsid := sort_filter_id (fun z => insideSp fsp (spanOf z))
    ((x :: xs).map (hFun t fsp)) hGle hGR
  calc pass3Go t none (sortStable annLt
        ((x :: xs).filterMap (pass1Step t fsp) ++ F))
      = pass3Go t none (sortStable annLt
        (((x :: xs).map (hFun t fsp)).filter
            (fun z => !insideSp fsp (spanOf z)) ++
         ((x :: xs).map (hFun t fsp)).filter
            (fun z => insideSp fsp (spanOf z)))) := by
        rw [hK1, ← hGneg, ← hGpos.trans hLfilt]
    _ = pass3Go t none ((x :: xs).map (hFun t fsp)) := by rw [hsid]
    _ = x :: xs := by
        rw [hLM]
        apply p3_idem
        intro a ha hPa
        rw [mem_sortStable] at ha
        rcases List.mem_append.mp ha with h | h
        · exact (hAgood a h).2.2
        · rw [hFins a h] at hPa; cases hPa

/-! ## Claim theorems: hybrid parser -/

/-- C5 counterexample.  On an exact confidence tie with verbose=False
(the default), the new candidate is silently dropped: the merge returns
the accumulator unchanged and the value "Marcus" is recorded nowhere,
not even as alternative provenance. -/
theorem claim_C5_counterexample :
    mergeEnts [("praenomen", { value := "Gaius", confidence := q090 })]
      [("praenomen", { value := "Marcus", confidence := q090 })]
      true false "grammar_templates" =
      [("praenomen", { value := "Gaius", confidence := q090 })] ∧
    ∀ kv ∈ mergeEnts
      [("praenomen", { value := "Gaius", confidence := q090 })]
      [("praenomen", { value := "Marcus", confidence := q090 })]
      true false "grammar_templates",
      kv.2.alts = [] ∧ kv.2.value ≠ "Marcus" := by decide

/-- C5 (amended).  The merge policy of _merge_entities, slot by slot:
an absent slot is added; a strictly higher-confidence candidate
replaces the existing entity; on an exact tie the existing entity is
kept, and the new value is appended as alternative provenance only when
verbose is true — with verbose false it is dropped without trace; a
lower-confidence candidate is dropped; and merging a whole mapping is
the fold of this step over its items. -/
theorem claim_C5_merge_policy (m : EntMap) (k : String) (v : HEnt)
    (vb : Bool) (ph : String) :
    (lookupA m k = none →
      mergeEnts m [(k, v)] true vb ph = setA m k (phaseTag vb ph v)) ∧
    (∀ e, lookupA m k = some e → v.confidence > e.confidence →
      mergeEnts m [(k, v)] true vb ph = setA m k (phaseTag vb ph v)) ∧
    (∀ e, lookupA m k = some e → v.confidence = e.confidence →
      vb = true →
      mergeEnts m [(k, v)] true vb ph =
        setA m k { e with alts := e.alts ++ [(v.value, ph)] }) ∧
    (∀ e, lookupA m k = some e → v.confidence = e.confidence →
      vb = false → mergeEnts m [(k, v)] true vb ph = m) ∧
    (∀ e, lookupA m k = some e → v.confidence < e.confidence →
      mergeEnts m [(k, v)] true vb ph = m) ∧
    (∀ existing new, mergeEnts existing new true vb ph =
      new.foldl (mergeStep true vb ph) existing) := by
  refine ⟨?_, ?_, ?_, ?_, ?_, fun _ _ => rfl⟩
  · intro h
    rw [mergeEnts_single, mergeStep, h]
  · intro e h hgt
    rw [mergeEnts_single, mergeStep, h]
    have : (phaseTag vb ph v).confidence > e.confidence := by
      rw [phaseTag_confidence]; exact hgt
    simp only [if_pos rfl, this, if_true]
  · intro e h heq hvb
    subst hvb
    rw [mergeEnts_single, mergeStep, h]
    have h1 : ¬ (phaseTag true ph v).confidence > e.confidence := by
      rw [phaseTag_confidence, heq]; exact lt_irrefl _
    have h2 : (phaseTag true ph v).confidence = e.confidence := by
      rw [phaseTag_confidence]; exact heq
    simp only [if_neg h1, if_pos h2, if_true, if_pos rfl,
      phaseTag_value]
  · intro e h heq hvb
    subst hvb
    rw [mergeEnts_single, mergeStep, h]
    have h1 : ¬ (phaseTag false ph v).confidence > e.confidence := by
      rw [phaseTag_confidence, heq]; exact lt_irrefl _
    have h2 : (phaseTag false ph v).confidence = e.confidence := by
      rw [phaseTag_confidence]; exact heq
    simp only [if_neg h1, if_pos h2, if_pos rfl, Bool.false_eq_true,
      if_false]
    simp
  · intro e h hlt
    rw [mergeEnts_single, mergeStep, h]
    have h1 : ¬ (phaseTag vb ph v).confidence > e.confidence := by
      rw [phaseTag_confidence]; exact not_lt.mpr (le_of_lt hlt)
    have h2 : ¬ (phaseTag vb ph v).confidence = e.confidence := by
      rw [phaseTag_confidence]; exact ne_of_lt hlt
    simp only [if_pos rfl, if_neg h1, if_neg h2]
    simp

/-- C5 witness. -/
theorem claim_C5_merge_policy_witness :
    (lookupA [] "praenomen" = none →
      mergeEnts [] [("praenomen",
          { value := "Gaius", confidence := q090 })] true true "ph" =
        setA [] "praenomen" (phaseTag true "ph"
          { value := "Gaius", confidence := q090 })) ∧
    lookupA [] "praenomen" = none ∧
    mergeEnts [] [("praenomen",
        { value := "Gaius", confidence := q090 })] true true "ph" =
      [("praenomen",
        { value := "Gaius", confidence := q090,
          phase := some "ph" })] :=
  ⟨(claim_C5_merge_policy [] "praenomen"
      { value := "Gaius", confidence := q090 } true "ph").1,
   by decide, by decide⟩

theorem bestOf_spec (rest : List (String × HEnt)) :
    ∀ h0 : String × HEnt, bestOf h0 rest ∈ h0 :: rest ∧
      ∀ x ∈ h0 :: rest, x.2.confidence ≤ (bestOf h0 rest).2.confidence := by
  induction rest with
  | nil =>
    intro h0
    exact ⟨List.mem_singleton.mpr rfl, by simp [bestOf]⟩
  | cons y ys ih =>
    intro h0
    have hstep : bestOf h0 (y :: ys) =
        bestOf (if y.2.confidence > h0.2.confidence then y else h0) ys :=
      rfl
    obtain ⟨ihm, ihge⟩ :=
      ih (if y.2.confidence > h0.2.confidence then y else h0)
    constructor
    · rw [hstep]
      rcases List.mem_cons.mp ihm with hc | hc
      · rw [hc]
        split
        · exact List.mem_cons_of_mem _ (List.mem_cons_self _ _)
        · exact List.mem_cons_self _ _
      · exact List.mem_cons_of_mem _ (List.mem_cons_of_mem _ hc)
    · intro x hx
      rw [hstep]
      by_cases hgt : y.2.confidence > h0.2.confidence
      · rw [if_pos hgt] at ihge ⊢
        rcases List.mem_cons.mp hx with rfl | hx
        · exact le_trans (le_of_lt hgt)
            (ihge _ (List.mem_cons_self _ _))
        rcases List.mem_cons.mp hx with rfl | hx
        · exact ihge _ (List.mem_cons_self _ _)
        · exact ihge _ (List.mem_cons_of_mem _ hx)
      · rw [if_neg hgt] at ihge ⊢
        rcases List.mem_cons.mp hx with rfl | hx
        · exact ihge _ (List.mem_cons_self _ _)
        rcases List.mem_cons.mp hx with rfl | hx
        · exact le_trans (not_lt.mp hgt)
            (ihge _ (List.mem_cons_self _ _))
        · exact ihge _ (List.mem_cons_of_mem _ hx)

theorem lookupA_cons_ne (a : String × HEnt) (l : EntMap) (k : String)
    (h : (a.1 == k) = false) : lookupA (a :: l) k = lookupA l k := by
  simp [lookupA, List.find?, h]

theorem lookupA_append_some (l1 l2 : EntMap) (k : String) (c : HEnt)
    (h : lookupA l1 k = some c) : lookupA (l1 ++ l2) k = some c := by
  induction l1 with
  | nil => simp [lookupA] at h
  | cons a l ih =>
    rw [List.cons_append]
    by_cases ha : (a.1 == k) = true
    · simpa [lookupA, List.find?, ha] using
        (by simpa [lookupA, List.find?, ha] using h :
          some a.2 = some c)
    · rw [lookupA_cons_ne _ _ _ (by simpa using ha)] at h ⊢
      exact ih h

theorem foldl_app_extra (f : EntMap → (String × HEnt) → EntMap)
    (hf : ∀ acc x, f acc x = acc ∨ f acc x = acc ++ [x]) :
    ∀ (l : List (String × HEnt)) (acc : EntMap), ∃ extra,
      l.foldl f acc = acc ++ extra := by
  intro l
  induction l with
  | nil => exact fun acc => ⟨[], by simp⟩
  | cons x xs ih =>
    intro acc
    rw [List.foldl_cons]
    obtain ⟨e, he⟩ := ih (f acc x)
    rcases hf acc x with h | h
    · rw [he, h]
      exact ⟨e, rfl⟩
    · rw [he, h, List.append_assoc]
      exact ⟨[x] ++ e, rfl⟩

theorem lookupA_self (k : String) (v : HEnt) (l : EntMap) :
    lookupA ((k, v) :: l) k = some v := by
  simp [lookupA, List.find?]

theorem groupCons_key {es : EntMap} {g : List String}
    {x : String × HEnt} (h : groupCons es g = some x) :
    x.1 = g.headD "" := by
  rw [groupCons] at h
  cases hfound : g.filterMap (fun k => (lookupA es k).map (fun e => (k, e))) with
  | nil => rw [hfound] at h; exact absurd h (by simp)
  | cons a l =>
    rw [hfound] at h
    obtain rfl := (Option.some_injective _ h).symm
    rfl

theorem lookupA_filterMap_groups (es : EntMap)
    (pre post : List (List String)) (g : List String) (c : HEnt)
    (hgc : groupCons es g = some (g.headD "", c))
    (hpre : ∀ g' ∈ pre, (g'.headD "" == g.headD "") = false) :
    lookupA ((pre ++ g :: post).filterMap (groupCons es))
      (g.headD "") = some c := by
  induction pre with
  | nil =>
    rw [List.nil_append, List.filterMap_cons, hgc]
    exact lookupA_self _ _ _
  | cons p ps ih =>
    rw [List.cons_append, List.filterMap_cons]
    cases hp : groupCons es p with
    | none => exact ih (fun g' h => hpre g' (List.mem_cons_of_mem _ h))
    | some x =>
      rw [lookupA_cons_ne]
      · exact ih (fun g' h => hpre g' (List.mem_cons_of_mem _ h))
      · rw [groupCons_key hp]
        exact hpre p (List.mem_cons_self _ _)

theorem q005_nonneg : 0 ≤ q005 := by
  have h : q005 = 1 / 20 := by
    rw [q005, Rat.mk'_eq_divInt]
    norm_num [Rat.divInt_eq_div]
  rw [h]
  norm_num

theorem groupCons_formula (es : EntMap) (g : List String)
    (hh : String × HEnt) (rest : List (String × HEnt))
    (hfound : g.filterMap (fun k => (lookupA es k).map (fun e => (k, e)))
      = hh :: rest)
    (hagree : rest.all (fun ke => ke.2.value == hh.2.value) = true) :
    ∃ c, groupCons es g = some (g.headD "", c) ∧
      ((rest = [] ∧ c.confidence = (bestOf hh rest).2.confidence) ∨
        (rest ≠ [] ∧ c.confidence = min q098 ((bestOf hh rest).2.confidence +
          q005 * (((hh :: rest).length - 1 : Nat) : Rat)))) := by
  rcases rest with _ | ⟨y, ys⟩
  · have hg1 : groupCons es g = some (g.headD "",
        { (bestOf hh []).2 with sources := some (srcsOf [hh]) }) := by
      rw [groupCons, hfound]
      dsimp only
      rw [if_neg (by simp)]
    exact ⟨_, hg1, Or.inl ⟨rfl, rfl⟩⟩
  · have hg2 : groupCons es g = some (g.headD "",
        { ({ (bestOf hh (y :: ys)).2 with
              sources := some (srcsOf (hh :: y :: ys)) } : HEnt) with
          confidence := min q098 ((bestOf hh (y :: ys)).2.confidence +
            q005 * (((hh :: y :: ys).length - 1 : Nat) : Rat)),
          agreement := some "high" }) := by
      rw [groupCons, hfound]
      dsimp only
      rw [if_pos (by simp), if_pos hagree]
    exact ⟨_, hg2, Or.inr ⟨by simp, rfl⟩⟩

/-- C6 counterexample.  _consolidate_entities only applies the
min(0.98, …) cap when more than one variant is found: a single variant
with confidence 0.99 is passed through unchanged, which is above 0.98
and differs from min(0.98, 0.99 + 0.05·0) = 0.98, so the claim's
formula and its 0.98 ceiling fail as universally stated. -/
theorem claim_C6_counterexample :
    lookupA (consolidateEnts
        [("deceased_name", { value := "X", confidence := q099 })])
      "deceased_name" =
      some { value := "X", confidence := q099,
             sources := some [("deceased_name", q099, "X")] } ∧
    q099 > q098 ∧ min q098 q099 = q098 ∧ q099 ≠ q098 ∧
    q099 + q005 * (((1 : Nat) - 1 : Nat) : Rat) = q099 := by
  refine ⟨by decide, by decide, min_eq_left (by decide), by decide, ?_⟩
  simp

/-- C6 (amended).  For every entity mapping and every slot-variant
group in which all N ≥ 1 found variants agree on value and every
variant's confidence is at most 0.98, the consolidated entity's
confidence equals min(0.98, best + 0.05·(N−1)); in particular it never
drops below the best variant's confidence and never exceeds 0.98.
(The bound hypothesis is forced by the counterexample: a variant above
0.98 is passed through or even capped below itself.) -/
theorem claim_C6_consolidation (es : EntMap) (g : List String)
    (hg : g ∈ entityGroups)
    (hh : String × HEnt) (rest : List (String × HEnt))
    (hfound : g.filterMap (fun k => (lookupA es k).map (fun e => (k, e)))
      = hh :: rest)
    (hagree : ∀ x ∈ hh :: rest, x.2.value = hh.2.value)
    (hbound : ∀ x ∈ hh :: rest, x.2.confidence ≤ q098) :
    ∃ c, lookupA (consolidateEnts es) (g.headD "") = some c ∧
      c.confidence = min q098 ((bestOf hh rest).2.confidence +
        q005 * (((hh :: rest).length - 1 : Nat) : Rat)) ∧
      (bestOf hh rest).2.confidence ≤ c.confidence ∧
      c.confidence ≤ q098 ∧
      bestOf hh rest ∈ hh :: rest ∧
      ∀ x ∈ hh :: rest, x.2.confidence ≤ (bestOf hh rest).2.confidence := by
  have hagreeB : rest.all (fun ke => ke.2.value == hh.2.value) = true := by
    rw [List.all_eq_true]
    intro ke hke
    exact beq_iff_eq.mpr (hagree ke (List.mem_cons_of_mem _ hke))
  obtain ⟨c, hgc, hconf⟩ := groupCons_formula es g hh rest hfound hagreeB
  obtain ⟨hbm, hbge⟩ := bestOf_spec rest hh
  have hbest98 : (bestOf hh rest).2.confidence ≤ q098 := hbound _ hbm
  have hnn : 0 ≤ q005 * (((hh :: rest).length - 1 : Nat) : Rat) :=
    mul_nonneg q005_nonneg (Nat.cast_nonneg _)
  have hcf : c.confidence = min q098 ((bestOf hh rest).2.confidence +
      q005 * (((hh :: rest).length - 1 : Nat) : Rat)) := by
    rcases hconf with ⟨rfl, hc⟩ | ⟨hne, hc⟩
    · rw [hc]
      have h0 : ((((hh :: ([] : List (String × HEnt))).length - 1 : Nat)) :
          Rat) = 0 := by simp
      rw [h0, mul_zero, add_zero, min_eq_right hbest98]
    · exact hc
  have hlkg : lookupA (entityGroups.filterMap (groupCons es))
      (g.headD "") = some c := by
    fin_cases hg
    · exact lookupA_filterMap_groups es []
        [["dedicator", "dedicator_morphology", "dedicator_dependency"],
         ["relationship", "relationship_morphology",
          "relationship_dependency", "deceased_relationship"],
         ["location", "location_morphology"]] _ c hgc (by decide)
    · exact lookupA_filterMap_groups es
        [["deceased_name", "deceased_name_morphology",
          "deceased_name_dependency"]]
        [["relationship", "relationship_morphology",
          "relationship_dependency", "deceased_relationship"],
         ["location", "location_morphology"]] _ c hgc (by decide)
    · exact lookupA_filterMap_groups es
        [["deceased_name", "deceased_name_morphology",
          "deceased_name_dependency"],
         ["dedicator", "dedicator_morphology", "dedicator_dependency"]]
        [["location", "location_morphology"]] _ c hgc (by decide)
    · exact lookupA_filterMap_groups es
        [["deceased_name", "deceased_name_morphology",
          "deceased_name_dependency"],
         ["dedicator", "dedicator_morphology", "dedicator_dependency"],
         ["relationship", "relationship_morphology",
          "relationship_dependency", "deceased_relationship"]]
        [] _ c hgc (by decide)
  have hstruct : ∃ extra, consolidateEnts es =
      entityGroups.filterMap (groupCons es) ++ extra := by
    simp only [consolidateEnts]
    exact foldl_app_extra _ (fun acc x => by
      split
      · exact Or.inl rfl
      · exact Or.inr rfl) es _
  obtain ⟨extra, hex⟩ := hstruct
  refine ⟨c, ?_, hcf, ?_, ?_, hbm, hbge⟩
  · rw [hex]
    exact lookupA_append_some _ _ _ _ hlkg
  · rw [hcf]
    exact le_min hbest98 (le_add_of_nonneg_right hnn)
  · rw [hcf]
    exact min_le_left _ _

/-- C6 witness. -/
theorem claim_C6_consolidation_witness :
    ∃ c, lookupA (consolidateEnts
        [("deceased_name", { value := "X", confidence := q090 }),
         ("deceased_name_morphology",
          { value := "X", confidence := q088 })]) "deceased_name" =
        some c ∧
      c.confidence = min q098 (q090 + q005 * ((1 : Nat) : Rat)) ∧
      q090 ≤ c.confidence ∧ c.confidence ≤ q098 ∧
      ("deceased_name",
        ({ value := "X", confidence := q090 } : HEnt)) ∈
        [("deceased_name", ({ value := "X", confidence := q090 } : HEnt)),
         ("deceased_name_morphology",
          { value := "X", confidence := q088 })] ∧
      ∀ x ∈ [("deceased_name",
          ({ value := "X", confidence := q090 } : HEnt)),
         ("deceased_name_morphology",
          { value := "X", confidence := q088 })],
        x.2.confidence ≤ q090 :=
  claim_C6_consolidation
    [("deceased_name", { value := "X", confidence := q090 }),
     ("deceased_name_morphology", { value := "X", confidence := q088 })]
    ["deceased_name", "deceased_name_morphology",
     "deceased_name_dependency"]
    (by decide)
    ("deceased_name", { value := "X", confidence := q090 })
    [("deceased_name_morphology", { value := "X", confidence := q088 })]
    (by decide) (by decide) (by decide)

/-! ## Claim theorems: pattern extraction stub -/

/-- C8.  Whenever no extraction category matches (the assembled
category list is empty), _extract_entities_stub returns exactly one
entity: the sentinel carrying confidence 0.50 and a truncated excerpt
(the first 50 characters, a prefix of the input); it is total, never an
empty mapping. -/
theorem claim_C8_fallback (text : List Char) (h : stubCore text = []) :
    extractEntitiesStub text =
      [("text", ⟨String.mk (text.take 50), q050⟩)] ∧
    (extractEntitiesStub text).length = 1 ∧
    ∃ rest, text = text.take 50 ++ rest := by
  have h1 : extractEntitiesStub text =
      [("text", ⟨String.mk (text.take 50), q050⟩)] := by
    rw [extractEntitiesStub, h]
    simp
  exact ⟨h1, by rw [h1]; rfl, text.drop 50, (List.take_append_drop _ _).symm⟩

/-- C8 witness. -/
theorem claim_C8_fallback_witness :
    (extractEntitiesStub "".data =
      [("text", ⟨String.mk ("".data.take 50), q050⟩)] ∧
    (extractEntitiesStub "".data).length = 1 ∧
    ∃ rest, "".data = "".data.take 50 ++ rest) ∧
    extractEntitiesStub "ZZZ".data =
      [("text", ⟨"ZZZ", q050⟩)] :=
  ⟨claim_C8_fallback "".data (by decide), by decide⟩

/-- C9.  On "D M GAIVS IVLIVS CAESAR" the pattern extractor yields
exactly status = dis manibus (0.95), praenomen = Gaius (0.92 ≥ 0.90),
nomen = Iulius (0.88) and cognomen = Caesar (0.90). -/
theorem claim_C9_caesar_scenario :
    extractEntitiesStub "D M GAIVS IVLIVS CAESAR".data =
      [("status", ⟨"dis manibus", q095⟩),
       ("praenomen", ⟨"Gaius", q092⟩),
       ("nomen", ⟨"Iulius", q088⟩),
       ("cognomen", ⟨"Caesar", q090⟩)] ∧
    (q092 : Rat) ≥ q090 := by decide

/-- C10.  With an empty input annotation list fix_single_annotation
returns the empty list for every transcription, and in particular adds
no formula annotation even though the raw-text scan would find one in
a transcription such as "dis manibus". -/
theorem claim_C10_empty_short_circuit :
    (∀ t, fixSingleAnn t [] = []) ∧
    findAndMergeFormulas "dis manibus".data =
      [⟨0, 11, "DEDICATION_TO_THE_GODS"⟩] ∧
    fixSingleAnn "dis manibus".data [] = [] :=
  ⟨fun _ => rfl, by decide, rfl⟩

/-- C2 (counterexample).  fix_single_annotation is not idempotent for
every input: on the transcription "pedes fronte annos" with one
COGNOMEN annotation over "annos", the first pass relabels it
AGE_PREFIX, and the second pass then drops it, because AGE_PREFIX is an
age label and the measurement words "pedes" and "fronte" sit within 30
characters of the span. -/
theorem claim_C2_counterexample :
    fixSingleAnn "pedes fronte annos".data
        (fixSingleAnn "pedes fronte annos".data [⟨13, 18, "COGNOMEN"⟩]) ≠
      fixSingleAnn "pedes fronte annos".data [⟨13, 18, "COGNOMEN"⟩] := by
  decide

/-- C2 (amended).  Applying fix_single_annotation twice yields the same
annotation list as applying it once, for every transcription whose
lower-cased text does not contain both "pedes" and "fronte", nor both
"locus" and "pedum" (so the measurement-context drop can never fire).
Formula spans and relabeled words are canonical after one pass. -/
theorem claim_C2_idempotence (t : List Char) (anns : List Ann)
    (hm : (containsSub (lowerStr t) "pedes".data = false ∨
           containsSub (lowerStr t) "fronte".data = false) ∧
          (containsSub (lowerStr t) "locus".data = false ∨
           containsSub (lowerStr t) "pedum".data = false)) :
    fixSingleAnn t (fixSingleAnn t anns) = fixSingleAnn t anns := by
  cases anns with
  | nil => rfl
  | cons a0 r0 =>
    cases hL : fixSingleAnn t (a0 :: r0) with
    | nil => rfl
    | cons x xs =>
      have hrun1 : fixSingleAnn t (a0 :: r0) =
          pass3Go t none (sortStable annLt
            ((a0 :: r0).filterMap (pass1Step t
              ((findAndMergeFormulas t).map
                (fun f => (f.astart, f.astop)))) ++
              findAndMergeFormulas t)) := by
        simp only [fixSingleAnn]
      have hrun2 : fixSingleAnn t (x :: xs) =
          pass3Go t none (sortStable annLt
            ((x :: xs).filterMap (pass1Step t
              ((findAndMergeFormulas t).map
                (fun f => (f.astart, f.astop)))) ++
              findAndMergeFormulas t)) := by
        simp only [fixSingleAnn]
      rw [hrun2]
      generalize hFgen : findAndMergeFormulas t = Fc at hrun1 ⊢
      refine c2_aux t Fc (Fc.map (fun f => (f.astart, f.astop))) rfl
        ?_ ?_ ?_ ?_ ?_ (measurementCtx_false hm)
        ((a0 :: r0).filterMap (pass1Step t
          (Fc.map (fun f => (f.astart, f.astop))))) x xs ?_ ?_ ?_
      · subst hFgen
        exact fun f hf => fmf_valid hf
      · subst hFgen
        intro f hf
        rcases fmf_label hf with h | h | h <;> rw [h] <;>
          exact srw_notRemoval (by decide)
      · subst hFgen
        exact fun f hf => fmf_notRoman hf
      · subst hFgen
        exact fmf_starts t
      · subst hFgen
        exact fmf_sorted t
      · exact fun z hz => filterMap_inside_false hz
      · intro z hz
        obtain ⟨a, _, hpa⟩ := List.mem_filterMap.mp hz
        obtain ⟨rfl, hval, hsrw, _⟩ := pass1Step_inv hpa
        exact ⟨hval, srw_relabel hsrw, relabelWord_idem _ _⟩
      · rw [← hL]
        exact hrun1

/-- C2 witness: the amended idempotence theorem applied to the concrete
transcription "dis manibus" (which contains a formula but no
measurement words) and one NOMEN annotation. -/
theorem claim_C2_idempotence_witness :
    ((containsSub (lowerStr "dis manibus".data) "pedes".data = false ∨
      containsSub (lowerStr "dis manibus".data) "fronte".data = false) ∧
     (containsSub (lowerStr "dis manibus".data) "locus".data = false ∨
      containsSub (lowerStr "dis manibus".data) "pedum".data = false)) ∧
    fixSingleAnn "dis manibus".data
        (fixSingleAnn "dis manibus".data [⟨0, 3, "NOMEN"⟩]) =
      fixSingleAnn "dis manibus".data [⟨0, 3, "NOMEN"⟩] :=
  ⟨⟨Or.inl (by decide), Or.inl (by decide)⟩,
   claim_C2_idempotence _ _ ⟨Or.inl (by decide), Or.inl (by decide)⟩⟩

end Latinitas
